import Mathlib

/-!
Shallow embedding of the scope-tree profiler in `src/power_toys.rs`
(crate `voxell_timer`, module `power_toys`).

Modelling conventions:
* `Instant` and `Duration` are modelled as `Nat` (nanoseconds, say);
  `Instant::elapsed` at time `now` is `now - start`, which in `Nat`
  saturates at zero just like the saturating behaviour of `Instant`.
* Every operation that reads the clock takes the current instant `now`
  as an explicit argument.
* Mutation is modelled by state passing: a Rust method on
  `&mut ScopedTimer` becomes a function `ScopedTimer I → ScopedTimer I`.
* A `ScopeJoinHandle` is a mutable reference into the tree; in the trace
  semantics below it is represented by the path (list of child indices)
  from the root to the node it borrows.
-/

namespace TimerRs

/-- The `ScopedTimer<I>` struct of `power_toys.rs`: identifier, activation
instant `start`, accumulated duration, fork counter, and children. -/
inductive ScopedTimer (I : Type) : Type where
  | mk (ident : I) (start : Nat) (accumulated : Nat) (times_forked : Nat)
       (children : List (ScopedTimer I)) : ScopedTimer I

variable {I : Type}

/-- Field projection for `ident`. -/
def ScopedTimer.ident : ScopedTimer I → I
  | .mk id _ _ _ _ => id

/-- Field projection for `start` (the activation instant). -/
def ScopedTimer.start : ScopedTimer I → Nat
  | .mk _ st _ _ _ => st

/-- Field projection for `accumulated`. -/
def ScopedTimer.accumulated : ScopedTimer I → Nat
  | .mk _ _ acc _ _ => acc

/-- Field projection for `times_forked`. -/
def ScopedTimer.times_forked : ScopedTimer I → Nat
  | .mk _ _ _ tf _ => tf

/-- Field projection for `children`. -/
def ScopedTimer.children : ScopedTimer I → List (ScopedTimer I)
  | .mk _ _ _ _ cs => cs

/-- `ScopedTimer::new(ident)`: zero accumulated duration, zero fork count,
no children, `start` set to the construction instant. -/
def ScopedTimer.new (ident : I) (now : Nat) : ScopedTimer I :=
  .mk ident now 0 0 []

/-- `search_and_push` (power_toys.rs lines 450-484), with the two unsafe
accesses (`get_unchecked_mut` after a successful `position`, and
`last_mut().unwrap_unchecked()` after a `push`) modelled as fallible
`Option` lookups; `none` marks the error branch that the unsafe code
assumes unreachable.  Returns the updated child vector together with the
index the returned `ScopeJoinHandle` borrows. -/
def search_and_pushChecked [DecidableEq I] (v : List (ScopedTimer I)) (ident : I)
    (now : Nat) : Option (List (ScopedTimer I) × Nat) :=
  match v.findIdx? (fun child => child.ident = ident) with
  | some index =>
    match v[index]? with
    | some entry =>
      -- entry.times_forked += 1; then cjh.inner.start = Instant::now()
      some (v.set index (.mk entry.ident now entry.accumulated
        (entry.times_forked + 1) entry.children), index)
    | none => none
  | none =>
    -- let mut timer = ScopedTimer::new(ident); timer.times_forked = 1;
    -- v.push(timer); then cjh.inner.start = Instant::now()
    let v2 := v ++ [ScopedTimer.mk ident now 0 1 []]
    match v2.getLast? with
    | some _ => some (v2, v.length)
    | none => none

/-- Total version of `search_and_push`: the same computation with the
in-bounds facts discharged (see `search_and_pushChecked`). -/
def search_and_push [DecidableEq I] (v : List (ScopedTimer I)) (ident : I)
    (now : Nat) : List (ScopedTimer I) × Nat :=
  match h : v.findIdx? (fun child => child.ident = ident) with
  | some index =>
    let entry := v.get ⟨index, List.findIdx?_eq_some_iff_findIdx_eq.mp h |>.1⟩
    (v.set index (.mk entry.ident now entry.accumulated
      (entry.times_forked + 1) entry.children), index)
  | none =>
    (v ++ [ScopedTimer.mk ident now 0 1 []], v.length)

/-- `<ScopedTimer as Forkable>::fork` (lines 164-167): increments the
node's own `times_forked`, then delegates to `search_and_push` on its
children.  Returns the updated node and the borrowed child index. -/
def ScopedTimer.fork [DecidableEq I] (t : ScopedTimer I) (ident : I) (now : Nat) :
    ScopedTimer I × Nat :=
  let r := search_and_push t.children ident now
  (.mk t.ident t.start t.accumulated (t.times_forked + 1) r.1, r.2)

/-- `<ScopeJoinHandle as Forkable>::fork` (lines 372-377): delegates to
`search_and_push` on the wrapped node's children, without touching the
wrapped node's own counter. -/
def handleFork [DecidableEq I] (t : ScopedTimer I) (ident : I) (now : Nat) :
    ScopedTimer I × Nat :=
  let r := search_and_push t.children ident now
  (.mk t.ident t.start t.accumulated t.times_forked r.1, r.2)

/-- `ScopedTimer::join` (lines 352-355): `accumulated += start.elapsed()`. -/
def ScopedTimer.join (t : ScopedTimer I) (now : Nat) : ScopedTimer I :=
  .mk t.ident t.start (t.accumulated + (now - t.start)) t.times_forked t.children

/-- `<ScopeJoinHandle as Drop>::drop` (lines 442-447): runs
`self.inner.join()` on the borrowed node. -/
def ScopeJoinHandle.drop (t : ScopedTimer I) (now : Nat) : ScopedTimer I :=
  t.join now

/-- `ScopeJoinHandle::join` (lines 436-439): the body is empty; consuming
the handle runs the `Drop` glue, which performs the join logic. -/
def ScopeJoinHandle.join (t : ScopedTimer I) (now : Nat) : ScopedTimer I :=
  ScopeJoinHandle.drop t now

mutual

/-- `ScopedTimer::finish` (lines 332-349): post-order walk pushing
`(ident, self_time, times_forked)` entries onto `v`, where self time is
`accumulated - Σ children.accumulated` guarded against underflow. -/
def ScopedTimer.finish : ScopedTimer I → List (I × Nat × Nat) → List (I × Nat × Nat)
  | .mk id _ acc tf children, v =>
    let r := finishChildren children v
    -- if chillated <= horde { horde -= chillated } else { horde = ZERO }
    r.2 ++ [(id, if r.1 ≤ acc then acc - r.1 else 0, tf)]

/-- The `for child in self.children` loop of `finish`: accumulates
`chillated += child.accumulated` and recurses `child.finish(v)`. -/
def finishChildren : List (ScopedTimer I) → List (I × Nat × Nat) →
    Nat × List (I × Nat × Nat)
  | [], v => (0, v)
  | c :: cs, v =>
    let v2 := ScopedTimer.finish c v
    let r := finishChildren cs v2
    (c.accumulated + r.1, r.2)

end

/-- `ScopedTimer::join_and_finish` (lines 200-206): joins the root itself,
then collects the tree into a flat list via `finish`. -/
def ScopedTimer.join_and_finish (t : ScopedTimer I) (now : Nat) :
    List (I × Nat × Nat) :=
  (t.join now).finish []

/-! ## Trace semantics

Rust's borrow rules force the live `ScopeJoinHandle`s into a stack: each
handle mutably borrows its parent, so at every instant the program can
only fork from, or join, the deepest live handle (or the root timer when
no handle is alive).  A client interaction is therefore a sequence of
events, and the program state is the tree plus the path (child indices
from the root) to the node borrowed by the deepest live handle. -/

/-- One client-visible operation on the scope tree. -/
inductive Event (I : Type) where
  | fork (ident : I) (now : Nat)
  | join (now : Nat)

/-- Program state: current tree plus the path of the deepest live handle
(`[]` when only the root timer is accessible). -/
structure TState (I : Type) where
  root : ScopedTimer I
  path : List Nat

/-- The node reached from `t` by following child indices `p`. -/
def nodeAt : List Nat → ScopedTimer I → Option (ScopedTimer I)
  | [], t => some t
  | i :: p, t =>
    match t.children[i]? with
    | some c => nodeAt p c
    | none => none

/-- Apply `f` to the node at path `p`, leaving every node off the path
untouched (a no-op when the path dangles). -/
def modifyAtPath (f : ScopedTimer I → ScopedTimer I) :
    List Nat → ScopedTimer I → ScopedTimer I
  | [], t => f t
  | i :: p, .mk id st acc tf cs =>
    .mk id st acc tf (cs.modify (modifyAtPath f p) i)

/-- The child index a fork of `ident` borrows: the position found by the
linear scan of `search_and_push`, or the append position. -/
def childIdx [DecidableEq I] (v : List (ScopedTimer I)) (ident : I) : Nat :=
  match v.findIdx? (fun child => child.ident = ident) with
  | some index => index
  | none => v.length

/-- One step of the trace semantics.  A fork from the root timer uses
`ScopedTimer.fork` (which bumps the root's own counter, line 165); a fork
from a live handle uses `handleFork` (which does not, lines 372-377).
A join runs the `Drop` glue on the deepest handle and pops it. -/
def step [DecidableEq I] (s : TState I) : Event I → TState I
  | .fork ident now =>
    match nodeAt s.path s.root with
    | none => s
    | some parent =>
      let f : ScopedTimer I → ScopedTimer I :=
        if s.path = [] then fun t => (t.fork ident now).1
        else fun t => (handleFork t ident now).1
      { root := modifyAtPath f s.path s.root
        path := s.path ++ [childIdx parent.children ident] }
  | .join now =>
    if s.path = [] then s
    else
      { root := modifyAtPath (fun t => ScopeJoinHandle.drop t now) s.path s.root
        path := s.path.dropLast }

/-- Run a trace of events from a state. -/
def run [DecidableEq I] (s : TState I) (evs : List (Event I)) : TState I :=
  evs.foldl step s

/-- The state right after `ScopedTimer::new(ident)` at instant `now`. -/
def initState (ident : I) (now : Nat) : TState I :=
  { root := ScopedTimer.new ident now, path := [] }

/-- After every event of the trace, the handle stack still has at least
`n` live entries (the borrow discipline while a handle at depth `n` is
alive: all nested activity stays strictly below it). -/
def holdsAbove [DecidableEq I] : TState I → Nat → List (Event I) → Bool
  | _, _, [] => true
  | s, n, e :: evs => (decide (n ≤ (step s e).path.length)) && holdsAbove (step s e) n evs

/-- The path of the child a fork event borrows: the parent's path
extended by the index `search_and_push` returns. -/
def forkTarget [DecidableEq I] (s : TState I) (ident : I) : Option (List Nat) :=
  (nodeAt s.path s.root).map (fun parent => s.path ++ [childIdx parent.children ident])

/-- How many times one event increments the `times_forked` counter of
the node at path `q`: a fork credits its target child, and — when issued
on the root timer itself — also the root (line 165). -/
def creditOf [DecidableEq I] (s : TState I) (e : Event I) (q : List Nat) : Nat :=
  match e with
  | .fork ident _ =>
    (if forkTarget s ident = some q then 1 else 0) +
      (if s.path = [] ∧ q = [] then 1 else 0)
  | .join _ => 0

/-- Total fork credit of a trace towards the node at path `q`. -/
def credits [DecidableEq I] : TState I → List (Event I) → List Nat → Nat
  | _, [], _ => 0
  | s, e :: evs, q => creditOf s e q + credits (step s e) evs q

/-! ## The pretty renderer

`join_and_finish_pretty` (lines 214-327).  Two aspects are modelled
abstractly:
* `timings.sort_unstable_by(|a, b| b.1.cmp(&a.1))` guarantees only that
  the result is a permutation that is non-increasing in the duration
  field; equal elements may land in any order (`sort_unstable_by` is
  documented as unstable).  It is embedded as the relation
  `sortUnstableSpec` capturing exactly that contract.
* the `Display` form of identifiers and the `Debug` form of `Duration`
  are external formatting collaborators, passed in as functions
  `showIdent` and `showDur`; `u32` display is decimal `toString`.
The code mixes two length units: the width fold (lines 244-252) and the
header maxima (lines 254-256) use `String::len()`, which counts UTF-8
bytes (`String.utf8ByteSize` here), while the `{:<width$}` padding of
`Formatter::pad` counts characters (`String.length` here).  The
embedding keeps both units where the source uses them. -/

/-- The contract of `sort_unstable_by` with comparator `b.1.cmp(&a.1)`:
some permutation of the input that is non-increasing in the duration
component. -/
def sortUnstableSpec (input output : List (I × Nat × Nat)) : Prop :=
  input.Perm output ∧ output.Pairwise (fun a b => b.2.1 ≤ a.2.1)

/-- Lines 226-242: stringify each `(identifier, duration, times_forked)`
triple. -/
def stringifyRows (showIdent : I → String) (showDur : Nat → String)
    (timings : List (I × Nat × Nat)) : List (String × String × String) :=
  timings.map (fun res => (showIdent res.1, showDur res.2.1, toString res.2.2))

/-- Lines 244-252: the fold computing the longest cell per column, with
`String::len()`, i.e. in UTF-8 bytes. -/
def longestCols (strings : List (String × String × String)) : Nat × Nat × Nat :=
  strings.foldl
    (fun acc s =>
      (max acc.1 s.1.utf8ByteSize, max acc.2.1 s.2.1.utf8ByteSize,
        max acc.2.2 s.2.2.utf8ByteSize))
    (0, 0, 0)

/-- Rust's `{:<width$}` format (`Formatter::pad`): left-align, pad on
the right with spaces to `w` characters (no truncation when the text is
longer).  Note the unit mismatch with `longestCols`: padding counts
characters, the width fold counted bytes. -/
def padTo (w : Nat) (s : String) : String :=
  s ++ String.mk (List.replicate (w - s.length) ' ')

/-- One table line (header or data), as emitted by the `writeln!` calls
on lines 291-300 and 311-320: pipe, one space, each cell left-aligned to
its column width, one space, pipe, newline. -/
def tableRow (w1 w2 w3 : Nat) (c : String × String × String) : String :=
  "| " ++ padTo w1 c.1 ++ " | " ++ padTo w2 c.2.1 ++ " | " ++ padTo w3 c.2.2 ++ " |\n"

/-- Lines 277-282: the horizontal rule, `width + 2` dashes per column. -/
def hline (w1 w2 w3 : Nat) : String :=
  "+" ++ String.mk (List.replicate (w1 + 2) '-') ++ "+" ++
    String.mk (List.replicate (w2 + 2) '-') ++ "+" ++
    String.mk (List.replicate (w3 + 2) '-') ++ "+"

/-- Lines 244-326: compute column widths (cell fold maxed with the
header labels' `len()`, i.e. bytes) and assemble the table. -/
def renderTable (strings : List (String × String × String)) : String :=
  let l := longestCols strings
  let w1 := max l.1 "Identifier".utf8ByteSize
  let w2 := max l.2.1 "Duration".utf8ByteSize
  let w3 := max l.2.2 "Times Forked".utf8ByteSize
  hline w1 w2 w3 ++ "\n" ++
    tableRow w1 w2 w3 ("Identifier", "Duration", "Times Forked") ++
    hline w1 w2 w3 ++ "\n" ++
    String.join (strings.map (tableRow w1 w2 w3)) ++
    hline w1 w2 w3

/-- `ScopedTimer::join_and_finish_pretty` (lines 214-327) as a relation
between the consumed timer and the produced string (relational because of
the unstable sort). -/
def join_and_finish_pretty [DecidableEq I] (showIdent : I → String)
    (showDur : Nat → String) (t : ScopedTimer I) (now : Nat) (out : String) : Prop :=
  ∃ sorted, sortUnstableSpec (t.join_and_finish now) sorted ∧
    out = renderTable (stringifyRows showIdent showDur sorted)

/-- Stable insertion (by non-increasing duration) used as the reference
for what a tie-stable descending sort would return. -/
def insertDesc (a : I × Nat × Nat) : List (I × Nat × Nat) → List (I × Nat × Nat)
  | [] => [a]
  | b :: l => if a.2.1 < b.2.1 then b :: insertDesc a l else a :: b :: l

/-- The unique tie-stable descending sort (insertion sort): equal-time
entries keep their input order. -/
def stableSortDesc : List (I × Nat × Nat) → List (I × Nat × Nat)
  | [] => []
  | a :: l => insertDesc a (stableSortDesc l)

/-- Largest value of `f` over the rows (0 for no rows). -/
def maxOver (f : (String × String × String) → Nat)
    (l : List (String × String × String)) : Nat :=
  (l.map f).foldr max 0

/-- The three column widths `join_and_finish_pretty` uses (lines
254-256, in `String::len()` bytes). -/
def colWidths (strings : List (String × String × String)) : Nat × Nat × Nat :=
  let l := longestCols strings
  (max l.1 "Identifier".utf8ByteSize, max l.2.1 "Duration".utf8ByteSize,
    max l.2.2 "Times Forked".utf8ByteSize)

/-! ## Derived notions used to state the aggregation claims -/

/-- The `chillated` sum: total accumulated duration of a child list. -/
def sumAcc (cs : List (ScopedTimer I)) : Nat :=
  (cs.map ScopedTimer.accumulated).sum

/-- The self time `finish` computes for a node: accumulated minus the
children's total, saturating at zero. -/
def selfTime (t : ScopedTimer I) : Nat :=
  if sumAcc t.children ≤ t.accumulated then t.accumulated - sumAcc t.children else 0

/-- The report entry `finish` pushes for a node. -/
def entryOf (t : ScopedTimer I) : I × Nat × Nat :=
  (t.ident, selfTime t, t.times_forked)

mutual

/-- All nodes of a tree in post-order (each node after its subtree). -/
def postorderNodes : ScopedTimer I → List (ScopedTimer I)
  | .mk id st acc tf cs => postorderNodesChildren cs ++ [.mk id st acc tf cs]

/-- Post-order node lists of a forest, concatenated left to right. -/
def postorderNodesChildren : List (ScopedTimer I) → List (ScopedTimer I)
  | [] => []
  | c :: cs => postorderNodes c ++ postorderNodesChildren cs

end

mutual

/-- The paths (child-index lists) of all nodes of a tree, in the same
post-order as `postorderNodes`. -/
def postorderPaths : ScopedTimer I → List (List Nat)
  | .mk _ _ _ _ cs => postorderPathsChildren 0 cs ++ [[]]

/-- Paths of a forest whose first tree sits at child index `i`. -/
def postorderPathsChildren : Nat → List (ScopedTimer I) → List (List Nat)
  | _, [] => []
  | i, c :: cs =>
    (postorderPaths c).map (fun p => i :: p) ++ postorderPathsChildren (i + 1) cs

end

mutual

/-- Number of nodes of a tree. -/
def size : ScopedTimer I → Nat
  | .mk _ _ _ _ cs => sizeChildren cs + 1

/-- Number of nodes of a forest. -/
def sizeChildren : List (ScopedTimer I) → Nat
  | [] => 0
  | c :: cs => size c + sizeChildren cs

end

mutual

/-- Well-formedness: at every node of the tree, the children carry
pairwise distinct identifiers. -/
def wf : ScopedTimer I → Prop
  | .mk _ _ _ _ cs => (cs.map ScopedTimer.ident).Nodup ∧ wfChildren cs

/-- Forest version of `wf`. -/
def wfChildren : List (ScopedTimer I) → Prop
  | [] => True
  | c :: cs => wf c ∧ wfChildren cs

end

/-! ## Characterisation of `search_and_push` -/

/-- Projection of a literal node. -/
@[simp] theorem ident_mk (id : I) (st acc tf : Nat) (cs : List (ScopedTimer I)) :
    (ScopedTimer.mk id st acc tf cs).ident = id := rfl

/-- Projection of a literal node. -/
@[simp] theorem start_mk (id : I) (st acc tf : Nat) (cs : List (ScopedTimer I)) :
    (ScopedTimer.mk id st acc tf cs).start = st := rfl

/-- Projection of a literal node. -/
@[simp] theorem accumulated_mk (id : I) (st acc tf : Nat) (cs : List (ScopedTimer I)) :
    (ScopedTimer.mk id st acc tf cs).accumulated = acc := rfl

/-- Projection of a literal node. -/
@[simp] theorem times_forked_mk (id : I) (st acc tf : Nat) (cs : List (ScopedTimer I)) :
    (ScopedTimer.mk id st acc tf cs).times_forked = tf := rfl

/-- Projection of a literal node. -/
@[simp] theorem children_mk (id : I) (st acc tf : Nat) (cs : List (ScopedTimer I)) :
    (ScopedTimer.mk id st acc tf cs).children = cs := rfl

/-- On the lookup path, `search_and_push` rewrites exactly the found slot:
the entry keeps its identifier, accumulated duration and children, gets
its counter bumped and its activation instant reset, and the returned
handle borrows that slot. -/
theorem search_and_push_found [DecidableEq I] (v : List (ScopedTimer I)) (ident : I)
    (now : Nat) (index : Nat)
    (h : v.findIdx? (fun child => child.ident = ident) = some index) :
    ∃ entry, v[index]? = some entry ∧ entry.ident = ident ∧
      search_and_push v ident now =
        (v.set index (.mk entry.ident now entry.accumulated (entry.times_forked + 1)
          entry.children), index) := by
  have hlt : index < v.length := (List.findIdx?_eq_some_iff_findIdx_eq.mp h).1
  refine ⟨v.get ⟨index, hlt⟩, ?_, ?_, ?_⟩
  · simp [List.getElem?_eq_getElem hlt]
  · obtain ⟨h1, h2, -⟩ := List.findIdx?_eq_some_iff_getElem.mp h
    simpa using h2
  · unfold search_and_push
    split
    · rename_i index' h'
      rw [h] at h'
      cases h'
      rfl
    · rename_i h'
      rw [h] at h'
      cases h'

/-- On the creation path, `search_and_push` appends a fresh node with
counter `1` and activation instant `now`, and the handle borrows the
appended slot. -/
theorem search_and_push_not_found [DecidableEq I] (v : List (ScopedTimer I)) (ident : I)
    (now : Nat) (h : v.findIdx? (fun child => child.ident = ident) = none) :
    search_and_push v ident now = (v ++ [ScopedTimer.mk ident now 0 1 []], v.length) := by
  unfold search_and_push
  split
  · rename_i index' h'
    rw [h] at h'
    cases h'
  · rfl

/-- C8: the two unsafe accesses in `search_and_push` are always in
bounds, so the checked embedding never reaches its error branch and
agrees with the total one. -/
theorem search_and_pushChecked_eq [DecidableEq I] (v : List (ScopedTimer I)) (ident : I)
    (now : Nat) :
    search_and_pushChecked v ident now = some (search_and_push v ident now) := by
  match h : v.findIdx? (fun child => child.ident = ident) with
  | some index =>
    obtain ⟨entry, hget, -, heq⟩ := search_and_push_found v ident now index h
    rw [heq]
    simp only [search_and_pushChecked, h, hget]
  | none =>
    rw [search_and_push_not_found v ident now h]
    simp only [search_and_pushChecked, h, List.getLast?_concat]

/-- C8: a fork is total and never fails.  The lookup path's unchecked
index and the creation path's unchecked last-element access are always
in bounds, so the checked embedding of `search_and_push` never reaches
an error branch and agrees with the total embedding. -/
theorem claim_C8_fork_total [DecidableEq I] (v : List (ScopedTimer I)) (ident : I)
    (now : Nat) :
    search_and_pushChecked v ident now = some (search_and_push v ident now) ∧
      (search_and_pushChecked v ident now).isSome = true := by
  refine ⟨search_and_pushChecked_eq v ident now, ?_⟩
  rw [search_and_pushChecked_eq]
  rfl

/-- C9 counterexample: with an existing child of the requested
identifier, a fork invoked on the root timer modifies a field other than
the found child's counter and timestamp — the invoked node's own
`times_forked` (line 165) — so the claim as stated is false. -/
theorem claim_C9_counterexample :
    (([ScopedTimer.mk 1 0 0 1 []] : List (ScopedTimer Nat)).findIdx?
        (fun child => child.ident = 1) = some 0) ∧
    (ScopedTimer.fork (.mk 0 0 0 0 [.mk 1 0 0 1 []]) 1 5).1.times_forked ≠
      (ScopedTimer.mk (I := Nat) 0 0 0 0 [.mk 1 0 0 1 []]).times_forked := by
  decide

/-- C9 (amended): when a fork finds an existing child with an equal
identifier, the only changes anywhere in the tree are that child's
counter (+1) and its activation instant (reset to `now`) — plus, when
the fork is invoked on the root timer rather than through a handle, the
invoked node's own counter (+1).  Every sibling slot is untouched, no
accumulated duration changes, and the found child keeps its identifier,
accumulated duration and entire subtree. -/
theorem claim_C9_fork_frame [DecidableEq I] (t : ScopedTimer I) (ident : I)
    (now : Nat) (index : Nat)
    (h : t.children.findIdx? (fun child => child.ident = ident) = some index) :
    ∃ entry, t.children[index]? = some entry ∧ entry.ident = ident ∧
      (handleFork t ident now).1 = ScopedTimer.mk t.ident t.start t.accumulated
        t.times_forked (t.children.set index (.mk entry.ident now entry.accumulated
          (entry.times_forked + 1) entry.children)) ∧
      (ScopedTimer.fork t ident now).1 = ScopedTimer.mk t.ident t.start t.accumulated
        (t.times_forked + 1) (t.children.set index (.mk entry.ident now entry.accumulated
          (entry.times_forked + 1) entry.children)) ∧
      (∀ j, j ≠ index → (t.children.set index (.mk entry.ident now entry.accumulated
          (entry.times_forked + 1) entry.children))[j]? = t.children[j]?) ∧
      (handleFork t ident now).2 = index ∧ (ScopedTimer.fork t ident now).2 = index := by
  obtain ⟨entry, hget, hid, heq⟩ := search_and_push_found t.children ident now index h
  refine ⟨entry, hget, hid, ?_, ?_, ?_, ?_, ?_⟩
  · simp only [handleFork, heq]
  · simp only [ScopedTimer.fork, heq]
  · intro j hj
    exact List.getElem?_set_ne hj.symm
  · simp only [handleFork, heq]
  · simp only [ScopedTimer.fork, heq]

/-- Witness for the amended C9 at a concrete tree: parent `0` with one
child `1`. -/
theorem claim_C9_witness :
    (([ScopedTimer.mk 1 2 7 3 []] : List (ScopedTimer Nat)).findIdx?
        (fun child => child.ident = 1) = some 0) ∧
    (∃ entry,
      ([ScopedTimer.mk 1 2 7 3 []] : List (ScopedTimer Nat))[0]? = some entry ∧
      entry.ident = 1 ∧
      (handleFork (.mk 0 4 5 6 [.mk 1 2 7 3 []]) 1 9).1 = ScopedTimer.mk 0 4 5 6
        (([ScopedTimer.mk 1 2 7 3 []] : List (ScopedTimer Nat)).set 0
          (.mk entry.ident 9 entry.accumulated (entry.times_forked + 1) entry.children)) ∧
      (ScopedTimer.fork (.mk 0 4 5 6 [.mk 1 2 7 3 []]) 1 9).1 = ScopedTimer.mk 0 4 5 (6 + 1)
        (([ScopedTimer.mk 1 2 7 3 []] : List (ScopedTimer Nat)).set 0
          (.mk entry.ident 9 entry.accumulated (entry.times_forked + 1) entry.children)) ∧
      (∀ j, j ≠ 0 →
        (([ScopedTimer.mk 1 2 7 3 []] : List (ScopedTimer Nat)).set 0
          (.mk entry.ident 9 entry.accumulated (entry.times_forked + 1) entry.children))[j]? =
          ([ScopedTimer.mk 1 2 7 3 []] : List (ScopedTimer Nat))[j]?) ∧
      (handleFork (.mk 0 4 5 6 [.mk 1 2 7 3 []]) 1 9).2 = 0 ∧
      (ScopedTimer.fork (.mk 0 4 5 6 [.mk 1 2 7 3 []]) 1 9).2 = 0) :=
  ⟨by decide, claim_C9_fork_frame (.mk 0 4 5 6 [.mk 1 2 7 3 []]) 1 9 0 (by decide)⟩

/-! ## The aggregation (`finish`) produces the post-order entry list -/

/-- A tree's post-order node list is its children's forest followed by
the node itself. -/
theorem postorderNodes_eq (n : ScopedTimer I) :
    postorderNodes n = postorderNodesChildren n.children ++ [n] := by
  cases n
  rfl

mutual

/-- `finish` appends exactly the post-order entry list to `v`. -/
theorem finish_eq (t : ScopedTimer I) (v : List (I × Nat × Nat)) :
    t.finish v = v ++ (postorderNodes t).map entryOf := by
  match t with
  | .mk id st acc tf cs =>
    simp only [ScopedTimer.finish, finishChildren_eq cs v, postorderNodes,
      List.map_append, List.map_cons, List.map_nil, entryOf, selfTime, ident_mk,
      accumulated_mk, times_forked_mk, children_mk, List.append_assoc]

/-- The children loop of `finish` returns the `chillated` sum and
appends the children's post-order entries. -/
theorem finishChildren_eq (cs : List (ScopedTimer I)) (v : List (I × Nat × Nat)) :
    finishChildren cs v = (sumAcc cs, v ++ (postorderNodesChildren cs).map entryOf) := by
  match cs with
  | [] => simp [finishChildren, sumAcc, postorderNodesChildren]
  | c :: cs' =>
    simp only [finishChildren, finish_eq c v, finishChildren_eq cs', sumAcc,
      postorderNodesChildren, List.map_cons, List.sum_cons, List.map_append,
      List.append_assoc]

end

mutual

/-- There are as many post-order nodes as nodes. -/
theorem length_postorderNodes (t : ScopedTimer I) :
    (postorderNodes t).length = size t := by
  match t with
  | .mk id st acc tf cs =>
    simp [postorderNodes, size, length_postorderNodesChildren cs]

/-- Forest version of `length_postorderNodes`. -/
theorem length_postorderNodesChildren (cs : List (ScopedTimer I)) :
    (postorderNodesChildren cs).length = sizeChildren cs := by
  match cs with
  | [] => simp [postorderNodesChildren, sizeChildren]
  | c :: cs' =>
    simp [postorderNodesChildren, sizeChildren, length_postorderNodes c,
      length_postorderNodesChildren cs']

end

mutual

/-- There are as many post-order paths as nodes. -/
theorem length_postorderPaths (t : ScopedTimer I) :
    (postorderPaths t).length = size t := by
  match t with
  | .mk id st acc tf cs =>
    simp [postorderPaths, size, length_postorderPathsChildren 0 cs]

/-- Forest version of `length_postorderPaths`. -/
theorem length_postorderPathsChildren (i : Nat) (cs : List (ScopedTimer I)) :
    (postorderPathsChildren i cs).length = sizeChildren cs := by
  match cs with
  | [] => simp [postorderPathsChildren, sizeChildren]
  | c :: cs' =>
    simp [postorderPathsChildren, sizeChildren, length_postorderPaths c,
      length_postorderPathsChildren (i + 1) cs']

end

/-- Membership in the forest path list: paths are `(i + j) :: p` for a
path `p` of the `j`-th tree. -/
theorem mem_postorderPathsChildren (q : List Nat) (i : Nat) (cs : List (ScopedTimer I)) :
    q ∈ postorderPathsChildren i cs ↔
      ∃ j c p, cs[j]? = some c ∧ p ∈ postorderPaths c ∧ q = (i + j) :: p := by
  induction cs generalizing i with
  | nil => simp [postorderPathsChildren]
  | cons c cs' ih =>
    simp only [postorderPathsChildren, List.mem_append, List.mem_map, ih (i + 1)]
    constructor
    · rintro (⟨p, hp, rfl⟩ | ⟨j, c', p, hj, hp, rfl⟩)
      · exact ⟨0, c, p, by simp, hp, by simp⟩
      · exact ⟨j + 1, c', p, by simpa using hj, hp, by rw [show i + (j + 1) = i + 1 + j by omega]⟩
    · rintro ⟨j, c', p, hj, hp, rfl⟩
      match j with
      | 0 =>
        left
        have : c' = c := by simpa using hj.symm
        exact ⟨p, this ▸ hp, by simp⟩
      | j + 1 =>
        right
        exact ⟨j, c', p, by simpa using hj, hp, by rw [show i + (j + 1) = i + 1 + j by omega]⟩

mutual

/-- Looking each post-order path up in the tree yields exactly the
post-order node list. -/
theorem pathsNodes (t : ScopedTimer I) :
    (postorderPaths t).map (fun p => nodeAt p t) = (postorderNodes t).map some := by
  match t with
  | .mk id st acc tf cs =>
    simp only [postorderPaths, postorderNodes, List.map_append, List.map_cons,
      List.map_nil]
    rw [pathsNodesChildren cs cs 0 (fun j => by simp) id st acc tf]
    rfl

/-- Forest version of `pathsNodes`: paths of a forest starting at child
index `i`, looked up in a parent whose child vector agrees from `i` on. -/
theorem pathsNodesChildren (cs₀ cs : List (ScopedTimer I)) (i : Nat)
    (hcs : ∀ j, cs[j]? = cs₀[i + j]?) (id : I) (st acc tf : Nat) :
    (postorderPathsChildren i cs).map
        (fun q => nodeAt q (.mk id st acc tf cs₀)) =
      (postorderNodesChildren cs).map some := by
  match cs with
  | [] => simp [postorderPathsChildren, postorderNodesChildren]
  | c :: cs' =>
    have h0 : cs₀[i]? = some c := by
      have := hcs 0
      simpa using this.symm
    simp only [postorderPathsChildren, postorderNodesChildren, List.map_append,
      List.map_map]
    congr 1
    · have : ∀ p, nodeAt (i :: p) (ScopedTimer.mk id st acc tf cs₀) = nodeAt p c := by
        intro p
        simp [nodeAt, h0]
      calc (postorderPaths c).map ((fun q => nodeAt q (ScopedTimer.mk id st acc tf cs₀)) ∘
            fun p => i :: p)
          = (postorderPaths c).map (fun p => nodeAt p c) := by
            apply List.map_congr_left
            intro p _
            exact this p
        _ = (postorderNodes c).map some := pathsNodes c
    · exact pathsNodesChildren cs₀ cs' (i + 1)
        (fun j => by
          have := hcs (j + 1)
          simpa [show i + (j + 1) = i + 1 + j by omega] using this) id st acc tf

end

mutual

/-- The post-order path list has no duplicates. -/
theorem nodup_postorderPaths (t : ScopedTimer I) : (postorderPaths t).Nodup := by
  match t with
  | .mk id st acc tf cs =>
    simp only [postorderPaths]
    refine List.Nodup.append (nodup_postorderPathsChildren 0 cs) (by simp) ?_
    intro q hq hq'
    obtain ⟨j, c, p, -, -, rfl⟩ := (mem_postorderPathsChildren q 0 cs).mp hq
    simp at hq'

/-- Forest version of `nodup_postorderPaths`. -/
theorem nodup_postorderPathsChildren (i : Nat) (cs : List (ScopedTimer I)) :
    (postorderPathsChildren i cs).Nodup := by
  match cs with
  | [] => simp [postorderPathsChildren]
  | c :: cs' =>
    simp only [postorderPathsChildren]
    refine List.Nodup.append ((nodup_postorderPaths c).map List.cons_injective)
      (nodup_postorderPathsChildren (i + 1) cs') ?_
    intro q hq hq'
    obtain ⟨p, -, rfl⟩ := List.mem_map.mp hq
    obtain ⟨j, c', p', -, -, heq⟩ := (mem_postorderPathsChildren _ (i + 1) cs').mp hq'
    have : i = i + 1 + j := by
      injection heq
    omega

end

/-- A forest's post-order node list splits around any member tree. -/
theorem postorderNodesChildren_decomp (cs : List (ScopedTimer I)) (j : Nat)
    (c : ScopedTimer I) (h : cs[j]? = some c) :
    ∃ A B, postorderNodesChildren cs = A ++ postorderNodes c ++ B := by
  induction cs generalizing j with
  | nil => simp at h
  | cons c₀ cs' ih =>
    match j with
    | 0 =>
      have hc : c₀ = c := by simpa using h
      subst hc
      exact ⟨[], postorderNodesChildren cs', by simp [postorderNodesChildren]⟩
    | j + 1 =>
      obtain ⟨A, B, hAB⟩ := ih j (by simpa using h)
      exact ⟨postorderNodes c₀ ++ A, B, by simp [postorderNodesChildren, hAB]⟩

/-- Every node's post-order entry block (descendants, then the node's
own entry) appears contiguously in the tree's entry list; for the root
it is the whole list. -/
theorem nodeAt_decomp (q : List Nat) (t n : ScopedTimer I) (h : nodeAt q t = some n) :
    ∃ pre post, (postorderNodes t).map entryOf =
      pre ++ (postorderNodes n).map entryOf ++ post ∧
      (q = [] → pre = [] ∧ post = []) := by
  induction q generalizing t with
  | nil =>
    have : t = n := by simpa [nodeAt] using h
    subst this
    exact ⟨[], [], by simp, fun _ => ⟨rfl, rfl⟩⟩
  | cons j q' ih =>
    match t with
    | .mk id st acc tf cs =>
      rw [nodeAt] at h
      simp only [children_mk] at h
      match hc : cs[j]? with
      | none => rw [hc] at h; cases h
      | some c =>
        rw [hc] at h
        obtain ⟨pre', post', hdec, -⟩ := ih c h
        obtain ⟨A, B, hAB⟩ := postorderNodesChildren_decomp cs j c hc
        refine ⟨A.map entryOf ++ pre',
          post' ++ B.map entryOf ++ [entryOf (.mk id st acc tf cs)], ?_, by simp⟩
        simp only [postorderNodes, hAB, List.map_append, List.map_cons, List.map_nil,
          hdec, List.append_assoc]

/-- `join_and_finish` is the post-order entry list of the joined tree. -/
theorem join_and_finish_eq (t : ScopedTimer I) (now : Nat) :
    t.join_and_finish now = (postorderNodes (t.join now)).map entryOf := by
  rw [ScopedTimer.join_and_finish, finish_eq]
  rfl

/-- The self time is the integer `max 0 (accumulated - Σ children)`:
the guarded subtraction saturates at zero and never wraps. -/
theorem selfTime_int (n : ScopedTimer I) :
    (selfTime n : ℤ) = max 0 ((n.accumulated : ℤ) - (sumAcc n.children : ℤ)) := by
  rw [selfTime]
  split
  · rename_i hle
    rw [Nat.cast_sub hle, max_eq_right (sub_nonneg.mpr (by exact_mod_cast hle))]
  · rename_i hgt
    have hlt : (n.accumulated : ℤ) < (sumAcc n.children : ℤ) := by
      exact_mod_cast Nat.lt_of_not_le hgt
    rw [max_eq_left (by omega)]
    simp

/-- Joining a node does not change the number of nodes. -/
theorem size_join (t : ScopedTimer I) (now : Nat) : size (t.join now) = size t := by
  cases t
  simp [ScopedTimer.join, size]

/-- Every tree has at least one node. -/
theorem size_pos (t : ScopedTimer I) : 0 < size t := by
  cases t
  simp [size]

/-- C1: the entry reported for every node of the finished tree carries
self time `accumulated - Σ children.accumulated`, saturating at zero:
equal to the code's guarded subtraction and to the integer
`max 0 (accumulated - Σ)`, so it never underflows or wraps. -/
theorem claim_C1_self_time (t : ScopedTimer I) (now : Nat) (q : List Nat)
    (n : ScopedTimer I) (h : nodeAt q (t.join now) = some n) :
    ∃ k : Nat, (t.join_and_finish now)[k]? = some (n.ident, selfTime n, n.times_forked) ∧
      selfTime n = (if sumAcc n.children ≤ n.accumulated then
        n.accumulated - sumAcc n.children else 0) ∧
      (selfTime n : ℤ) = max 0 ((n.accumulated : ℤ) - (sumAcc n.children : ℤ)) := by
  obtain ⟨pre, post, hdec, -⟩ := nodeAt_decomp q (t.join now) n h
  have hmem : entryOf n ∈ (postorderNodes (t.join now)).map entryOf := by
    rw [hdec]
    refine List.mem_append.mpr (Or.inl (List.mem_append.mpr (Or.inr ?_)))
    refine List.mem_map_of_mem entryOf ?_
    rw [postorderNodes_eq n]
    simp
  have hmem' : (n.ident, selfTime n, n.times_forked) ∈ t.join_and_finish now := by
    rw [join_and_finish_eq]
    exact hmem
  obtain ⟨k, hk⟩ := List.mem_iff_getElem?.mp hmem'
  exact ⟨k, hk, rfl, selfTime_int n⟩

/-- Witness for C1: root `0` with one child `1` that accumulated 5. -/
theorem claim_C1_witness :
    (nodeAt [0] ((ScopedTimer.mk 0 0 0 1 [.mk 1 0 5 1 []] : ScopedTimer Nat).join 10) =
      some (.mk 1 0 5 1 [])) ∧
    (∃ k : Nat, ((ScopedTimer.mk 0 0 0 1 [.mk 1 0 5 1 []] : ScopedTimer Nat).join_and_finish 10)[k]? =
        some ((ScopedTimer.mk 1 0 5 1 [] : ScopedTimer Nat).ident,
          selfTime (ScopedTimer.mk 1 0 5 1 [] : ScopedTimer Nat),
          (ScopedTimer.mk 1 0 5 1 [] : ScopedTimer Nat).times_forked) ∧
      selfTime (ScopedTimer.mk 1 0 5 1 [] : ScopedTimer Nat) =
        (if sumAcc (ScopedTimer.mk 1 0 5 1 [] : ScopedTimer Nat).children ≤
            (ScopedTimer.mk 1 0 5 1 [] : ScopedTimer Nat).accumulated then
          (ScopedTimer.mk 1 0 5 1 [] : ScopedTimer Nat).accumulated -
            sumAcc (ScopedTimer.mk 1 0 5 1 [] : ScopedTimer Nat).children else 0) ∧
      (selfTime (ScopedTimer.mk 1 0 5 1 [] : ScopedTimer Nat) : ℤ) =
        max 0 (((ScopedTimer.mk 1 0 5 1 [] : ScopedTimer Nat).accumulated : ℤ) -
          (sumAcc (ScopedTimer.mk 1 0 5 1 [] : ScopedTimer Nat).children : ℤ))) :=
  ⟨rfl, claim_C1_self_time (.mk 0 0 0 1 [.mk 1 0 5 1 []]) 10 [0] (.mk 1 0 5 1 []) rfl⟩

/-- C6: the list returned by `join_and_finish` is the tree's post-order:
every node's entry is directly preceded by the contiguous block of all
its descendants' entries, and the root's entry is the last element. -/
theorem claim_C6_postorder (t : ScopedTimer I) (now : Nat) :
    t.join_and_finish now = (postorderNodes (t.join now)).map entryOf ∧
    (∀ q n, nodeAt q (t.join now) = some n →
      ∃ pre post,
        t.join_and_finish now =
          pre ++ ((postorderNodesChildren n.children).map entryOf ++ [entryOf n]) ++ post ∧
        (q = [] → pre = [] ∧ post = [])) ∧
    (t.join_and_finish now).getLast? = some (entryOf (t.join now)) := by
  refine ⟨join_and_finish_eq t now, ?_, ?_⟩
  · intro q n h
    obtain ⟨pre, post, hdec, hroot⟩ := nodeAt_decomp q (t.join now) n h
    refine ⟨pre, post, ?_, hroot⟩
    rw [join_and_finish_eq, hdec, postorderNodes_eq n]
    simp
  · rw [join_and_finish_eq, postorderNodes_eq (t.join now)]
    simp

/-- Witness for C6 at the root of a two-node tree. -/
theorem claim_C6_witness :
    (nodeAt ([] : List Nat)
        ((ScopedTimer.mk 0 0 0 1 [.mk 1 0 5 1 []] : ScopedTimer Nat).join 10) =
      some (.mk 0 0 10 1 [.mk 1 0 5 1 []])) ∧
    (∃ pre post,
      (ScopedTimer.mk 0 0 0 1 [.mk 1 0 5 1 []] : ScopedTimer Nat).join_and_finish 10 =
        pre ++ ((postorderNodesChildren
            (ScopedTimer.mk (I := Nat) 0 0 10 1 [.mk 1 0 5 1 []]).children).map entryOf ++
          [entryOf (.mk 0 0 10 1 [.mk 1 0 5 1 []])]) ++ post ∧
        (([] : List Nat) = [] → pre = [] ∧ post = [])) :=
  ⟨rfl, (claim_C6_postorder (.mk 0 0 0 1 [.mk 1 0 5 1 []]) 10).2.1 [] _ rfl⟩

/-- C10: `join_and_finish` yields exactly one entry per node — its
length is the number of nodes, the `k`-th entry is the entry of the
`k`-th post-order path's node (and those paths are pairwise distinct),
the result is never empty, and a freshly constructed never-forked root
yields the one-entry list for the root itself. -/
theorem claim_C10_entries (t : ScopedTimer I) (now : Nat) :
    (t.join_and_finish now).length = size t ∧
    (postorderPaths (t.join now)).length = size t ∧
    (postorderPaths (t.join now)).Nodup ∧
    (∀ (k : Nat) (p : List Nat), (postorderPaths (t.join now))[k]? = some p →
      ∃ n, nodeAt p (t.join now) = some n ∧
        (t.join_and_finish now)[k]? = some (entryOf n)) ∧
    t.join_and_finish now ≠ [] ∧
    (∀ (i : I) (t0 : Nat),
      ScopedTimer.join_and_finish (ScopedTimer.new i t0) now = [(i, now - t0, 0)]) := by
  have hlen : (t.join_and_finish now).length = size t := by
    rw [join_and_finish_eq, List.length_map, length_postorderNodes, size_join]
  refine ⟨hlen, ?_, nodup_postorderPaths _, ?_, ?_, ?_⟩
  · rw [length_postorderPaths, size_join]
  · intro k p hk
    have hmap := congrArg (fun l => l[k]?) (pathsNodes (t.join now))
    simp only [List.getElem?_map, hk] at hmap
    match hn : (postorderNodes (t.join now))[k]? with
    | none => rw [hn] at hmap; simp at hmap
    | some n =>
      rw [hn] at hmap
      simp only [Option.map_some'] at hmap
      refine ⟨n, by simpa using hmap, ?_⟩
      rw [join_and_finish_eq]
      simp [hn]
  · have := size_pos t
    intro hnil
    rw [hnil] at hlen
    simp at hlen
    omega
  · intro i t0
    rw [join_and_finish_eq]
    simp [ScopedTimer.new, ScopedTimer.join, postorderNodes, postorderNodesChildren,
      entryOf, selfTime, sumAcc]

/-- Witness for C10: the first post-order path of a two-node tree. -/
theorem claim_C10_witness :
    ((postorderPaths ((ScopedTimer.mk 0 0 0 1 [.mk 1 0 5 1 []] : ScopedTimer Nat).join 10))[0]? =
      some [0]) ∧
    (∃ n, nodeAt [0] ((ScopedTimer.mk 0 0 0 1 [.mk 1 0 5 1 []] : ScopedTimer Nat).join 10) =
        some n ∧
      ((ScopedTimer.mk 0 0 0 1 [.mk 1 0 5 1 []] : ScopedTimer Nat).join_and_finish 10)[0]? =
        some (entryOf n)) :=
  ⟨by simp [ScopedTimer.join, postorderPaths, postorderPathsChildren],
    (claim_C10_entries (.mk 0 0 0 1 [.mk 1 0 5 1 []]) 10).2.2.2.1 0 [0]
      (by simp [ScopedTimer.join, postorderPaths, postorderPathsChildren])⟩

/-! ## Path algebra for `nodeAt` and `modifyAtPath` -/

/-- Path lookup decomposes along concatenation. -/
theorem nodeAt_append (q r : List Nat) : ∀ t : ScopedTimer I,
    nodeAt (q ++ r) t = (nodeAt q t).bind (nodeAt r) := by
  induction q with
  | nil => intro t; simp [nodeAt]
  | cons i q' ih =>
    intro t
    match t with
    | .mk id st acc tf cs =>
      simp only [List.cons_append, nodeAt, children_mk]
      match hc : cs[i]? with
      | none => simp
      | some c => simp [ih c]

/-- Path modification decomposes along concatenation. -/
theorem modifyAtPath_append (f : ScopedTimer I → ScopedTimer I) (q r : List Nat) :
    ∀ t, modifyAtPath f (q ++ r) t = modifyAtPath (modifyAtPath f r) q t := by
  induction q with
  | nil => intro t; simp [modifyAtPath]
  | cons i q' ih =>
    intro t
    match t with
    | .mk id st acc tf cs =>
      simp only [List.cons_append, modifyAtPath]
      have : modifyAtPath f (q' ++ r) = modifyAtPath (modifyAtPath f r) q' := funext ih
      rw [List.append_eq, this]

/-- Looking up the modified path sees exactly the modifier applied. -/
theorem nodeAt_modifyAtPath_self (f : ScopedTimer I → ScopedTimer I) (p : List Nat) :
    ∀ t, nodeAt p (modifyAtPath f p t) = (nodeAt p t).map f := by
  induction p with
  | nil => intro t; simp [nodeAt, modifyAtPath]
  | cons i p' ih =>
    intro t
    match t with
    | .mk id st acc tf cs =>
      simp only [modifyAtPath, nodeAt, children_mk]
      match hc : cs[i]? with
      | none => simp [List.getElem?_modify, hc]
      | some c => simp [List.getElem?_modify, hc, ih c]

/-- Modifying strictly below a node leaves all its scalar fields
untouched (only the children entry can differ). -/
theorem modifyAtPath_cons_fields (f : ScopedTimer I → ScopedTimer I) (j : Nat)
    (r : List Nat) (u : ScopedTimer I) :
    (modifyAtPath f (j :: r) u).ident = u.ident ∧
    (modifyAtPath f (j :: r) u).start = u.start ∧
    (modifyAtPath f (j :: r) u).accumulated = u.accumulated ∧
    (modifyAtPath f (j :: r) u).times_forked = u.times_forked := by
  match u with
  | .mk id st acc tf cs => simp [modifyAtPath]

/-- Modification along one branch is invisible along a diverging branch. -/
theorem nodeAt_modifyAtPath_div (f : ScopedTimer I → ScopedTimer I) (s0 : List Nat)
    (i j : Nat) (r1 r2 : List Nat) (hij : i ≠ j) (t : ScopedTimer I) :
    nodeAt (s0 ++ j :: r2) (modifyAtPath f (s0 ++ i :: r1) t) =
      nodeAt (s0 ++ j :: r2) t := by
  rw [modifyAtPath_append, nodeAt_append, nodeAt_append, nodeAt_modifyAtPath_self]
  match hu : nodeAt s0 t with
  | none => simp
  | some u =>
    match u with
    | .mk id st acc tf cs =>
      simp [modifyAtPath, nodeAt, List.getElem?_modify, hij]

/-- Any two paths are related by extension, reverse extension, or
divergence at a first differing index. -/
theorem path_trichotomy (p q : List Nat) :
    (∃ r, q = p ++ r) ∨ (∃ r, r ≠ [] ∧ p = q ++ r) ∨
    (∃ s0 i j r1 r2, i ≠ j ∧ p = s0 ++ i :: r1 ∧ q = s0 ++ j :: r2) := by
  induction p generalizing q with
  | nil => exact Or.inl ⟨q, rfl⟩
  | cons a p' ih =>
    match q with
    | [] => exact Or.inr (Or.inl ⟨a :: p', by simp, by simp⟩)
    | b :: q' =>
      by_cases hab : a = b
      · subst hab
        rcases ih q' with ⟨r, hr⟩ | ⟨r, hne, hr⟩ | ⟨s0, i, j, r1, r2, hij, h1, h2⟩
        · exact Or.inl ⟨r, by simp [hr]⟩
        · exact Or.inr (Or.inl ⟨r, hne, by simp [hr]⟩)
        · exact Or.inr (Or.inr ⟨a :: s0, i, j, r1, r2, hij, by simp [h1], by simp [h2]⟩)
      · exact Or.inr (Or.inr ⟨[], a, b, p', q', hab, by simp, by simp⟩)

/-! ## Effect of one fork or join on the counters along every path -/

/-- The handle returned by `search_and_push` borrows a slot holding a
node whose activation instant is `now`, whose identifier is the
requested one, whose counter is one more than the slot's previous
occupant's (zero for a fresh slot), and whose subtree is the previous
occupant's (empty for a fresh slot). -/
theorem search_and_push_target [DecidableEq I] (v : List (ScopedTimer I)) (ident : I)
    (now : Nat) :
    ∃ n, ((search_and_push v ident now).1)[(search_and_push v ident now).2]? = some n ∧
      n.start = now ∧ n.ident = ident ∧
      n.times_forked =
        ((v[(search_and_push v ident now).2]?).map ScopedTimer.times_forked).getD 0 + 1 ∧
      n.children =
        ((v[(search_and_push v ident now).2]?).map ScopedTimer.children).getD [] := by
  match hf : v.findIdx? (fun child => child.ident = ident) with
  | some index =>
    obtain ⟨entry, hget, hid, heq⟩ := search_and_push_found v ident now index hf
    rw [heq]
    refine ⟨.mk entry.ident now entry.accumulated (entry.times_forked + 1)
      entry.children, ?_, by simp, by simp [hid], by simp [hget], by simp [hget]⟩
    rw [List.getElem?_set_self', hget]
    rfl
  | none =>
    rw [search_and_push_not_found v ident now hf]
    refine ⟨.mk ident now 0 1 [], ?_, by simp, by simp, ?_, ?_⟩
    · exact List.getElem?_concat_length v _
    · rw [List.getElem?_eq_none (Nat.le_refl _)]
      simp
    · rw [List.getElem?_eq_none (Nat.le_refl _)]
      simp

/-- All slots other than the borrowed one are untouched by
`search_and_push`. -/
theorem search_and_push_other [DecidableEq I] (v : List (ScopedTimer I)) (ident : I)
    (now : Nat) (j : Nat) (hj : j ≠ (search_and_push v ident now).2) :
    ((search_and_push v ident now).1)[j]? = v[j]? := by
  match hf : v.findIdx? (fun child => child.ident = ident) with
  | some index =>
    obtain ⟨entry, -, -, heq⟩ := search_and_push_found v ident now index hf
    rw [heq] at hj ⊢
    exact List.getElem?_set_ne (fun h => hj h.symm)
  | none =>
    rw [search_and_push_not_found v ident now hf] at hj ⊢
    by_cases hlt : j < v.length
    · exact List.getElem?_append_left hlt
    · have hge : v.length + 1 ≤ j := by
        simp at hj
        omega
      rw [List.getElem?_eq_none (by simpa using hge), List.getElem?_eq_none (by omega)]

/-- The index `search_and_push` borrows is `childIdx`. -/
theorem search_and_push_idx [DecidableEq I] (v : List (ScopedTimer I)) (ident : I)
    (now : Nat) : (search_and_push v ident now).2 = childIdx v ident := by
  match hf : v.findIdx? (fun child => child.ident = ident) with
  | some index =>
    obtain ⟨entry, -, -, heq⟩ := search_and_push_found v ident now index hf
    rw [heq]
    simp [childIdx, hf]
  | none =>
    rw [search_and_push_not_found v ident now hf]
    simp [childIdx, hf]

/-- Both fork flavours install the `search_and_push` result as the
children vector and keep the node's other scalar fields (except the
counter, which only `ScopedTimer.fork` bumps). -/
theorem fork_fn_fields [DecidableEq I] (ident : I) (now : Nat) (u : ScopedTimer I) :
    (ScopedTimer.fork u ident now).1.children = (search_and_push u.children ident now).1 ∧
    (handleFork u ident now).1.children = (search_and_push u.children ident now).1 ∧
    (ScopedTimer.fork u ident now).1.times_forked = u.times_forked + 1 ∧
    (handleFork u ident now).1.times_forked = u.times_forked ∧
    (ScopedTimer.fork u ident now).1.start = u.start ∧
    (handleFork u ident now).1.start = u.start ∧
    (ScopedTimer.fork u ident now).1.accumulated = u.accumulated ∧
    (handleFork u ident now).1.accumulated = u.accumulated := by
  simp [ScopedTimer.fork, handleFork]

/-- A modifier preserving counters and children preserves the counter
seen along every path. -/
theorem tfAt_modifyAtPath_pres (f : ScopedTimer I → ScopedTimer I)
    (hf : ∀ u, (f u).times_forked = u.times_forked ∧ (f u).children = u.children)
    (p q : List Nat) (t : ScopedTimer I) :
    (nodeAt q (modifyAtPath f p t)).map ScopedTimer.times_forked =
      (nodeAt q t).map ScopedTimer.times_forked := by
  rcases path_trichotomy p q with ⟨r, rfl⟩ | ⟨r, hne, hpq⟩ | ⟨s0, i, j, r1, r2, hij, hp, hq⟩
  · rw [nodeAt_append, nodeAt_append, nodeAt_modifyAtPath_self]
    match hu : nodeAt p t with
    | none => simp
    | some u =>
      simp only [Option.map_some', Option.some_bind]
      match r with
      | [] => simp [nodeAt, (hf u).1]
      | j :: r' =>
        have hc := (hf u).2
        simp only [nodeAt, hc]
  · match r, hne with
    | j :: r', _ =>
      rw [hpq, modifyAtPath_append, nodeAt_modifyAtPath_self]
      match hu : nodeAt q t with
      | none => simp
      | some u => simp [(modifyAtPath_cons_fields f j r' u).2.2.2]
  · rw [hp, hq, nodeAt_modifyAtPath_div f s0 i j r1 r2 hij]

/-- A join event never changes any counter anywhere. -/
theorem tfAt_step_join [DecidableEq I] (s : TState I) (now : Nat) (q : List Nat) :
    (nodeAt q (step s (.join now)).root).map ScopedTimer.times_forked =
      (nodeAt q s.root).map ScopedTimer.times_forked := by
  simp only [step]
  by_cases hp : s.path = []
  · simp [hp]
  · simp only [hp, if_false, reduceIte]
    exact tfAt_modifyAtPath_pres _
      (fun u => by simp [ScopeJoinHandle.drop, ScopedTimer.join]) s.path q s.root

/-- Lookup of a non-empty path goes through the children vector. -/
theorem nodeAt_cons (j : Nat) (r : List Nat) (u : ScopedTimer I) :
    nodeAt (j :: r) u = u.children[j]?.bind (nodeAt r) := by
  match u with
  | .mk id st acc tf cs =>
    simp only [nodeAt, children_mk]
    cases cs[j]? <;> simp

/-- Counter seen through the updated children vector: unchanged
everywhere except at the borrowed slot itself, which gains one. -/
theorem tf_search_below [DecidableEq I] (v : List (ScopedTimer I)) (ident : I)
    (now : Nat) (j : Nat) (r : List Nat) :
    ((((search_and_push v ident now).1)[j]?.bind (nodeAt r)).map
        ScopedTimer.times_forked).getD 0 =
      ((v[j]?.bind (nodeAt r)).map ScopedTimer.times_forked).getD 0 +
        (if j = (search_and_push v ident now).2 ∧ r = [] then 1 else 0) := by
  by_cases hj : j = (search_and_push v ident now).2
  · obtain ⟨n, hget, -, -, htf, hch⟩ := search_and_push_target v ident now
    rw [hj, hget]
    match r with
    | [] =>
      simp only [nodeAt, Option.some_bind, Option.map_some', Option.getD_some, htf,
        and_true, if_pos rfl]
      cases hv : v[(search_and_push v ident now).2]? <;> simp [hv, nodeAt]
    | j2 :: r2 =>
      simp only [Option.some_bind, and_false, if_false, Nat.add_zero, reduceIte]
      rw [nodeAt_cons, hch]
      cases hv : v[(search_and_push v ident now).2]? with
      | none => simp [hv, nodeAt_cons]
      | some entry => simp [hv, nodeAt_cons]
  · rw [search_and_push_other v ident now j hj]
    simp [hj]

/-- One fork event increments exactly the counters `creditOf` credits:
the target child's (created if absent) and, for a fork issued on the
root timer, the root's own. -/
theorem tfAt_step_fork [DecidableEq I] (s : TState I) (ident : I) (now : Nat)
    (q : List Nat) :
    ((nodeAt q (step s (.fork ident now)).root).map ScopedTimer.times_forked).getD 0 =
      ((nodeAt q s.root).map ScopedTimer.times_forked).getD 0 +
        creditOf s (.fork ident now) q := by
  match hn : nodeAt s.path s.root with
  | none =>
    have hne : s.path ≠ [] := by
      intro h
      rw [h] at hn
      simp [nodeAt] at hn
    simp [step, hn, creditOf, forkTarget, hne]
  | some parent =>
    simp only [step, hn, creditOf, forkTarget, Option.map_some']
    rcases path_trichotomy s.path q with ⟨r, rfl⟩ | ⟨r, hner, hpq⟩ |
      ⟨s0, i, j, r1, r2, hij, hp, hq⟩
    · match r with
      | [] =>
        simp only [List.append_nil]
        rw [nodeAt_modifyAtPath_self, hn]
        by_cases hp0 : s.path = []
        · simp only [hp0, reduceIte, Option.map_some', Option.getD_some]
          rw [(fork_fn_fields ident now parent).2.2.1]
          simp
        · simp only [hp0, reduceIte, Option.map_some', Option.getD_some]
          rw [(fork_fn_fields ident now parent).2.2.2.1]
          have h1 : ¬(s.path ++ [childIdx parent.children ident] = s.path ++ []) := by
            simp
          simp only [List.append_nil] at h1
          simp [h1, hp0]
      | j :: r'' =>
        rw [nodeAt_append, nodeAt_append, nodeAt_modifyAtPath_self, hn]
        simp only [Option.map_some', Option.some_bind]
        rw [nodeAt_cons, nodeAt_cons]
        have hch : ((if s.path = [] then (fun t => (ScopedTimer.fork t ident now).1)
            else fun t => (handleFork t ident now).1) parent).children =
            (search_and_push parent.children ident now).1 := by
          by_cases hp0 : s.path = [] <;>
            simp [hp0, (fork_fn_fields ident now parent).1,
              (fork_fn_fields ident now parent).2.1]
        rw [hch, tf_search_below]
        congr 1
        rw [search_and_push_idx]
        have h2 : ¬(s.path = [] ∧ s.path ++ j :: r'' = []) := by
          rintro ⟨h3, h4⟩
          rw [h3] at h4
          simp at h4
        have h3 : (s.path ++ [childIdx parent.children ident] = s.path ++ j :: r'') ↔
            (j = childIdx parent.children ident ∧ r'' = []) := by
          rw [List.append_right_inj]
          constructor
          · intro h
            cases h
            exact ⟨rfl, rfl⟩
          · rintro ⟨rfl, rfl⟩
            rfl
        simp only [Option.some.injEq, h3, h2, if_false, Nat.add_zero, reduceIte]
    · match r, hner with
      | j :: r', _ =>
        rw [hpq, modifyAtPath_append, nodeAt_modifyAtPath_self]
        have h1 : ¬((q ++ j :: r') ++ [childIdx parent.children ident] = q) := by
          intro h
          have hl := congrArg List.length h
          simp only [List.length_append, List.length_cons] at hl
          omega
        have h2 : ¬(q ++ j :: r' = [] ∧ q = []) := by
          rintro ⟨h3, -⟩
          simp at h3
        match hu : nodeAt q s.root with
        | none => simp [hu, h1, h2]
        | some u =>
          simp only [hu, Option.map_some']
          rw [(modifyAtPath_cons_fields _ j r' u).2.2.2]
          simp [h1, h2]
    · rw [hp, hq, nodeAt_modifyAtPath_div _ s0 i j r1 r2 hij]
      have hA : ¬((s0 ++ i :: r1) ++ [childIdx parent.children ident] = s0 ++ j :: r2) := by
        intro h
        rw [List.append_assoc] at h
        have h2 := (List.append_right_inj s0).mp h
        simp only [List.cons_append, List.cons.injEq] at h2
        exact hij h2.1
      have hB : ¬(s0 ++ i :: r1 = [] ∧ s0 ++ j :: r2 = []) := by
        rintro ⟨h3, -⟩
        simp at h3
      simp only [hB, if_false, Nat.add_zero, reduceIte]
      simp [hA]
      exact fun h => absurd h hij

/-- Joining changes only the accumulated duration. -/
theorem join_fields (t : ScopedTimer I) (now : Nat) :
    (t.join now).children = t.children ∧
    (t.join now).times_forked = t.times_forked ∧
    (t.join now).ident = t.ident ∧
    (t.join now).accumulated = t.accumulated + (now - t.start) := by
  cases t
  simp [ScopedTimer.join]

/-- Running a trace adds exactly the trace's fork credits to the counter
of the node at every path. -/
theorem tf_run_credits [DecidableEq I] (evs : List (Event I)) :
    ∀ (s : TState I) (q : List Nat),
    ((nodeAt q (run s evs).root).map ScopedTimer.times_forked).getD 0 =
      ((nodeAt q s.root).map ScopedTimer.times_forked).getD 0 + credits s evs q := by
  induction evs with
  | nil =>
    intro s q
    simp [run, credits]
  | cons e evs ih =>
    intro s q
    have hrun : run s (e :: evs) = run (step s e) evs := by
      simp [run]
    have hcred : credits s (e :: evs) q = creditOf s e q + credits (step s e) evs q := by
      simp [credits]
    rw [hrun, ih (step s e) q, hcred]
    match e with
    | .fork ident now =>
      rw [tfAt_step_fork s ident now q]
      omega
    | .join now =>
      rw [tfAt_step_join s now q]
      simp [creditOf]

/-- C3: after any trace from a fresh root, every node's `times_forked`
equals the number of fork events credited to exactly that node (target
of the fork, plus the root itself for forks issued on the root timer),
and the entry finalize-and-collect reports for the node carries exactly
that count. -/
theorem claim_C3_activation_counts [DecidableEq I] (ident0 : I) (t0 : Nat)
    (evs : List (Event I)) (q : List Nat) (n : ScopedTimer I)
    (h : nodeAt q (run (initState ident0 t0) evs).root = some n) :
    n.times_forked = credits (initState ident0 t0) evs q ∧
    (∀ now, ∃ (k : Nat) (e : I × Nat × Nat),
      (((run (initState ident0 t0) evs).root).join_and_finish now)[k]? = some e ∧
      e.2.2 = credits (initState ident0 t0) evs q ∧
      e.1 = n.ident) := by
  have hz : ((nodeAt q (initState ident0 t0).root).map ScopedTimer.times_forked).getD 0
      = 0 := by
    match q with
    | [] => simp [initState, ScopedTimer.new, nodeAt]
    | j :: q' => simp [initState, ScopedTimer.new, nodeAt_cons]
  have htf : n.times_forked = credits (initState ident0 t0) evs q := by
    have hc := tf_run_credits evs (initState ident0 t0) q
    rw [h, hz] at hc
    simpa using hc
  refine ⟨htf, ?_⟩
  intro now
  have hjoin : ∃ m : ScopedTimer I,
      nodeAt q ((run (initState ident0 t0) evs).root.join now) = some m ∧
      m.times_forked = n.times_forked ∧ m.ident = n.ident := by
    match q, h with
    | [], h =>
      have hroot : (run (initState ident0 t0) evs).root = n := by
        simpa [nodeAt] using h
      refine ⟨(run (initState ident0 t0) evs).root.join now, by simp [nodeAt], ?_, ?_⟩
      · rw [(join_fields _ now).2.1, hroot]
      · rw [(join_fields _ now).2.2.1, hroot]
    | j :: q', h =>
      refine ⟨n, ?_, rfl, rfl⟩
      rw [nodeAt_cons] at h ⊢
      rw [(join_fields _ now).1]
      exact h
  obtain ⟨m, hm, hmtf, hmid⟩ := hjoin
  obtain ⟨pre, post, hdec, -⟩ :=
    nodeAt_decomp q ((run (initState ident0 t0) evs).root.join now) m hm
  have hmem : entryOf m ∈
      (postorderNodes ((run (initState ident0 t0) evs).root.join now)).map entryOf := by
    rw [hdec]
    refine List.mem_append.mpr (Or.inl (List.mem_append.mpr (Or.inr ?_)))
    refine List.mem_map_of_mem entryOf ?_
    rw [postorderNodes_eq m]
    simp
  have hmem' : entryOf m ∈ ((run (initState ident0 t0) evs).root).join_and_finish now := by
    rw [join_and_finish_eq]
    exact hmem
  obtain ⟨k, hk⟩ := List.mem_iff_getElem?.mp hmem'
  refine ⟨k, entryOf m, hk, ?_, hmid⟩
  show m.times_forked = _
  rw [hmtf, htf]

/-- Witness for C3: two forks of identifier `1` from the root (one
creation, one merge); the child's counter is 2 and is reported as 2. -/
theorem claim_C3_witness :
    (nodeAt [0] ((run (initState (0 : Nat) 0)
        [Event.fork 1 0, Event.join 5, Event.fork 1 5]).root) =
      some (.mk 1 5 5 2 [])) ∧
    ((ScopedTimer.mk (I := Nat) 1 5 5 2 []).times_forked =
      credits (initState (0 : Nat) 0) [Event.fork 1 0, Event.join 5, Event.fork 1 5] [0] ∧
    (∀ now, ∃ (k : Nat) (e : Nat × Nat × Nat),
      (((run (initState (0 : Nat) 0)
          [Event.fork 1 0, Event.join 5, Event.fork 1 5]).root).join_and_finish now)[k]? =
        some e ∧
      e.2.2 = credits (initState (0 : Nat) 0)
        [Event.fork 1 0, Event.join 5, Event.fork 1 5] [0] ∧
      e.1 = (ScopedTimer.mk (I := Nat) 1 5 5 2 []).ident)) :=
  ⟨rfl, claim_C3_activation_counts 0 0 [Event.fork 1 0, Event.join 5, Event.fork 1 5]
    [0] (.mk 1 5 5 2 []) rfl⟩

/-! ## C7: the join logic runs exactly once per handle lifetime -/

/-- A modification at or below a node leaves its accumulated duration
and activation instant alone, provided a modification exactly at the
node does (deeper ones touch only its children entry). -/
theorem accStart_modify_extends (f : ScopedTimer I → ScopedTimer I) (tgt rest : List Nat)
    (t : ScopedTimer I)
    (hf : rest = [] → ∀ u : ScopedTimer I,
      (f u).accumulated = u.accumulated ∧ (f u).start = u.start) :
    (nodeAt tgt (modifyAtPath f (tgt ++ rest) t)).map
        (fun n => (n.accumulated, n.start)) =
      (nodeAt tgt t).map (fun n => (n.accumulated, n.start)) := by
  match rest with
  | [] =>
    rw [List.append_nil, nodeAt_modifyAtPath_self]
    cases hu : nodeAt tgt t with
    | none => simp
    | some u => simp [(hf rfl u).1, (hf rfl u).2]
  | j :: rest' =>
    rw [modifyAtPath_append, nodeAt_modifyAtPath_self]
    cases hu : nodeAt tgt t with
    | none => simp
    | some u =>
      simp [(modifyAtPath_cons_fields f j rest' u).2.1,
        (modifyAtPath_cons_fields f j rest' u).2.2.1]

/-- While the handle stack stays at or below a live handle's node, the
node's accumulated duration and activation instant never change, and the
stack still extends the node's path afterwards. -/
theorem frame_above [DecidableEq I] (tgt : List Nat) (htgt : tgt ≠ [])
    (evs : List (Event I)) :
    ∀ (s1 : TState I) (rest : List Nat), s1.path = tgt ++ rest →
    holdsAbove s1 tgt.length evs = true →
    (∃ rest2, (run s1 evs).path = tgt ++ rest2) ∧
    (nodeAt tgt (run s1 evs).root).map (fun n => (n.accumulated, n.start)) =
      (nodeAt tgt s1.root).map (fun n => (n.accumulated, n.start)) := by
  induction evs with
  | nil =>
    intro s1 rest hp _
    exact ⟨⟨rest, hp⟩, rfl⟩
  | cons e evs ih =>
    intro s1 rest hp hab
    simp only [holdsAbove, Bool.and_eq_true, decide_eq_true_eq] at hab
    obtain ⟨hab1, hab2⟩ := hab
    have hstep : (∃ rest', (step s1 e).path = tgt ++ rest') ∧
        (nodeAt tgt (step s1 e).root).map (fun n => (n.accumulated, n.start)) =
          (nodeAt tgt s1.root).map (fun n => (n.accumulated, n.start)) := by
      match e with
      | .fork ident now =>
        match hn : nodeAt s1.path s1.root with
        | none =>
          refine ⟨⟨rest, ?_⟩, ?_⟩
          · simp only [step, hn]
            exact hp
          · simp only [step, hn]
        | some parent =>
          refine ⟨⟨rest ++ [childIdx parent.children ident], ?_⟩, ?_⟩
          · simp only [step, hn]
            rw [hp, List.append_assoc]
          · have hroot : (step s1 (Event.fork ident now)).root =
                modifyAtPath (if s1.path = [] then (fun t => (ScopedTimer.fork t ident now).1)
                  else fun t => (handleFork t ident now).1) s1.path s1.root := by
              simp [step, hn]
            rw [hroot, hp]
            apply accStart_modify_extends
            intro _ u
            constructor <;> split <;> simp [ScopedTimer.fork, handleFork]
      | .join now =>
        by_cases hp0 : s1.path = []
        · rw [hp] at hp0
          obtain ⟨h1, -⟩ := List.append_eq_nil.mp hp0
          exact absurd h1 htgt
        · have hpath' : (step s1 (Event.join now)).path = s1.path.dropLast := by
            simp [step, hp0]
          have hroot' : (step s1 (Event.join now)).root =
              modifyAtPath (fun t => ScopeJoinHandle.drop t now) s1.path s1.root := by
            simp [step, hp0]
          have hrest_ne : rest ≠ [] := by
            intro hrest
            subst hrest
            rw [hpath', hp, List.append_nil, List.length_dropLast] at hab1
            have h0 : 0 < tgt.length := List.length_pos.mpr htgt
            omega
          match rest, hrest_ne with
          | r0 :: rest', _ =>
            refine ⟨⟨(r0 :: rest').dropLast, ?_⟩, ?_⟩
            · rw [hpath', hp, List.dropLast_append_cons]
            · rw [hroot', hp]
              apply accStart_modify_extends
              intro hcontra
              exact absurd hcontra (by simp)
    obtain ⟨⟨rest', hp'⟩, hfields⟩ := hstep
    have hrun : run s1 (e :: evs) = run (step s1 e) evs := by
      simp [run]
    obtain ⟨hext, hpres⟩ := ih (step s1 e) rest' hp' hab2
    rw [hrun]
    exact ⟨hext, hpres.trans hfields⟩

/-- C7: explicit `join` and implicit release run the same logic, and
over a handle's whole lifetime (fork at `t1`, any nested balanced
activity, join or drop at `t2`) the node's accumulated duration grows by
exactly `t2 - t1`, i.e. the join logic executes exactly once.  After the
final join the stack returns to the parent. -/
theorem claim_C7_join_exactly_once [DecidableEq I] (s : TState I) (ident : I)
    (t1 t2 : Nat) (evs : List (Event I)) (parent : ScopedTimer I)
    (hparent : nodeAt s.path s.root = some parent)
    (hab : holdsAbove (step s (.fork ident t1)) (s.path.length + 1) evs = true)
    (hback : (run (step s (.fork ident t1)) evs).path.length = s.path.length + 1) :
    (∀ (u : ScopedTimer I) (now : Nat),
      ScopeJoinHandle.join u now = ScopeJoinHandle.drop u now ∧
      ScopeJoinHandle.drop u now = u.join now) ∧
    (∃ a : Nat,
      (nodeAt (s.path ++ [childIdx parent.children ident])
          (step s (.fork ident t1)).root).map (fun n => (n.accumulated, n.start)) =
        some (a, t1) ∧
      (nodeAt (s.path ++ [childIdx parent.children ident])
          (step (run (step s (.fork ident t1)) evs) (.join t2)).root).map
        (fun n => (n.accumulated, n.start)) = some (a + (t2 - t1), t1) ∧
      (step (run (step s (.fork ident t1)) evs) (.join t2)).path = s.path) := by
  refine ⟨fun u now => ⟨rfl, rfl⟩, ?_⟩
  obtain ⟨n, hget, hstart, -, -, -⟩ := search_and_push_target parent.children ident t1
  have htgt_ne : s.path ++ [childIdx parent.children ident] ≠ [] := by simp
  have hpath1 : (step s (.fork ident t1)).path =
      s.path ++ [childIdx parent.children ident] := by
    simp [step, hparent]
  have hroot1 : (step s (.fork ident t1)).root =
      modifyAtPath (if s.path = [] then (fun t => (ScopedTimer.fork t ident t1).1)
        else fun t => (handleFork t ident t1).1) s.path s.root := by
    simp [step, hparent]
  have hnode1 : nodeAt (s.path ++ [childIdx parent.children ident])
      (step s (.fork ident t1)).root = some n := by
    rw [hroot1, nodeAt_append, nodeAt_modifyAtPath_self, hparent]
    simp only [Option.map_some', Option.some_bind]
    rw [nodeAt_cons]
    have hch : ((if s.path = [] then (fun t => (ScopedTimer.fork t ident t1).1)
        else fun t => (handleFork t ident t1).1) parent).children =
        (search_and_push parent.children ident t1).1 := by
      by_cases hp0 : s.path = [] <;> simp [hp0, ScopedTimer.fork, handleFork]
    rw [hch, ← search_and_push_idx parent.children ident t1, hget]
    simp [nodeAt]
  have hlen : (s.path ++ [childIdx parent.children ident]).length = s.path.length + 1 := by
    simp
  have hframe := frame_above (s.path ++ [childIdx parent.children ident]) htgt_ne evs
    (step s (.fork ident t1)) [] (by rw [hpath1, List.append_nil]) (by rw [hlen]; exact hab)
  obtain ⟨⟨rest2, hrest2⟩, hpres⟩ := hframe
  have hrest2_nil : rest2 = [] := by
    have h := congrArg List.length hrest2
    rw [hback] at h
    simp only [List.length_append, List.length_cons, List.length_nil] at h
    have hz : rest2.length = 0 := by omega
    exact List.length_eq_zero.mp hz
  have hpath2 : (run (step s (.fork ident t1)) evs).path =
      s.path ++ [childIdx parent.children ident] := by
    rw [hrest2, hrest2_nil, List.append_nil]
  rw [hnode1] at hpres
  simp only [Option.map_some'] at hpres
  cases hm : nodeAt (s.path ++ [childIdx parent.children ident])
      (run (step s (.fork ident t1)) evs).root with
  | none =>
    rw [hm] at hpres
    simp at hpres
  | some m =>
    rw [hm] at hpres
    have hma : m.accumulated = n.accumulated ∧ m.start = n.start := by
      simp only [Option.map_some', Option.some.injEq, Prod.mk.injEq] at hpres
      exact hpres
    have hp2ne : (run (step s (.fork ident t1)) evs).path ≠ [] := by
      rw [hpath2]
      exact htgt_ne
    have hjoin_eq : ∀ (s2 : TState I), s2.path ≠ [] →
        (step s2 (.join t2)).root =
          modifyAtPath (fun t => ScopeJoinHandle.drop t t2) s2.path s2.root ∧
        (step s2 (.join t2)).path = s2.path.dropLast := by
      intro s2 h2
      constructor <;> simp [step, h2]
    obtain ⟨hroot3, hpath3d⟩ := hjoin_eq (run (step s (.fork ident t1)) evs) hp2ne
    have hpath3 : (step (run (step s (.fork ident t1)) evs) (.join t2)).path = s.path := by
      rw [hpath3d, hpath2, List.dropLast_concat]
    refine ⟨n.accumulated, by rw [hnode1]; simp [hstart], ?_, hpath3⟩
    rw [hroot3, hpath2, nodeAt_modifyAtPath_self, hm]
    simp only [Option.map_some', Option.some.injEq, Prod.mk.injEq]
    constructor
    · show (m.join t2).accumulated = n.accumulated + (t2 - t1)
      rw [(join_fields m t2).2.2.2, hma.1, hma.2, hstart]
    · show (m.join t2).start = t1
      cases m with
      | mk mid mst macc mtf mcs =>
        have : mst = t1 := by simpa [hstart] using hma.2
        simp [ScopedTimer.join, this]

/-- Witness for C7: fork child `1` at time 0, nested fork/join of `2`
inside it, then join at time 10. -/
theorem claim_C7_witness :
    (nodeAt ([] : List Nat) (initState (0 : Nat) 0).root =
      some (ScopedTimer.new 0 0)) ∧
    (holdsAbove (step (initState (0 : Nat) 0) (.fork 1 0)) 1
      [Event.fork 2 3, Event.join 7] = true) ∧
    ((run (step (initState (0 : Nat) 0) (.fork 1 0)) [Event.fork 2 3, Event.join 7]).path.length
      = 1) ∧
    (∃ a : Nat,
      (nodeAt ([childIdx (ScopedTimer.new (0 : Nat) 0).children 1])
          (step (initState (0 : Nat) 0) (.fork 1 0)).root).map
        (fun n => (n.accumulated, n.start)) = some (a, 0) ∧
      (nodeAt ([childIdx (ScopedTimer.new (0 : Nat) 0).children 1])
          (step (run (step (initState (0 : Nat) 0) (.fork 1 0))
            [Event.fork 2 3, Event.join 7]) (.join 10)).root).map
        (fun n => (n.accumulated, n.start)) = some (a + (10 - 0), 0) ∧
      (step (run (step (initState (0 : Nat) 0) (.fork 1 0))
        [Event.fork 2 3, Event.join 7]) (.join 10)).path = []) :=
  ⟨rfl, by decide, by decide,
    (claim_C7_join_exactly_once (initState (0 : Nat) 0) 1 0 10
      [Event.fork 2 3, Event.join 7] (ScopedTimer.new 0 0) rfl (by decide) (by decide)).2⟩

/-! ## C2: children identifiers stay pairwise distinct -/

/-- Replacing a slot by the element it already holds is the identity. -/
theorem set_self_of_getElem? {α : Type _} (l : List α) (i : Nat) (a : α)
    (h : l[i]? = some a) : l.set i a = l := by
  apply List.ext_getElem?
  intro j
  by_cases hij : i = j
  · subst hij
    rw [List.getElem?_set_self', h]
    rfl
  · rw [List.getElem?_set_ne hij]

/-- `wfChildren` is well-formedness of every member. -/
theorem wfChildren_iff (cs : List (ScopedTimer I)) : wfChildren cs ↔ ∀ c ∈ cs, wf c := by
  induction cs with
  | nil => simp [wfChildren]
  | cons c cs ih => simp [wfChildren, ih]

/-- Unfolding of `wf` on a literal node. -/
theorem wf_mk (id : I) (st acc tf : Nat) (cs : List (ScopedTimer I)) :
    wf (.mk id st acc tf cs) ↔ (cs.map ScopedTimer.ident).Nodup ∧ wfChildren cs := by
  simp [wf]

/-- On the lookup path, the identifier multiset of the children is
unchanged. -/
theorem map_ident_search_found [DecidableEq I] (v : List (ScopedTimer I)) (ident : I)
    (now index : Nat) (h : v.findIdx? (fun child => child.ident = ident) = some index) :
    (search_and_push v ident now).1.map ScopedTimer.ident = v.map ScopedTimer.ident := by
  obtain ⟨entry, hget, -, heq⟩ := search_and_push_found v ident now index h
  rw [heq]
  show (v.set index _).map ScopedTimer.ident = _
  rw [List.map_set]
  simp only [ident_mk]
  apply set_self_of_getElem?
  rw [List.getElem?_map, hget]
  rfl

/-- On the creation path, exactly the requested identifier is appended. -/
theorem map_ident_search_not_found [DecidableEq I] (v : List (ScopedTimer I)) (ident : I)
    (now : Nat) (h : v.findIdx? (fun child => child.ident = ident) = none) :
    (search_and_push v ident now).1.map ScopedTimer.ident =
      v.map ScopedTimer.ident ++ [ident] := by
  rw [search_and_push_not_found v ident now h]
  simp

/-- A missed linear scan means the identifier is absent. -/
theorem not_mem_of_findIdx?_none [DecidableEq I] (v : List (ScopedTimer I)) (ident : I)
    (h : v.findIdx? (fun child => child.ident = ident) = none) :
    ident ∉ v.map ScopedTimer.ident := by
  intro hmem
  obtain ⟨c, hc, hcid⟩ := List.mem_map.mp hmem
  have := List.findIdx?_eq_none_iff.mp h c hc
  simp [hcid] at this

/-- `search_and_push` preserves distinctness of the identifiers. -/
theorem nodup_search_and_push [DecidableEq I] (v : List (ScopedTimer I)) (ident : I)
    (now : Nat) (h : (v.map ScopedTimer.ident).Nodup) :
    ((search_and_push v ident now).1.map ScopedTimer.ident).Nodup := by
  match hf : v.findIdx? (fun child => child.ident = ident) with
  | some index => rw [map_ident_search_found v ident now index hf]; exact h
  | none =>
    rw [map_ident_search_not_found v ident now hf]
    refine List.Nodup.append h (by simp) ?_
    intro a ha ha'
    have : a = ident := by simpa using ha'
    subst this
    exact not_mem_of_findIdx?_none v a hf ha

/-- After a fork, exactly one child carries the forked identifier. -/
theorem count_search_and_push [DecidableEq I] (v : List (ScopedTimer I)) (ident : I)
    (now : Nat) (h : (v.map ScopedTimer.ident).Nodup) :
    ((search_and_push v ident now).1.map ScopedTimer.ident).count ident = 1 := by
  match hf : v.findIdx? (fun child => child.ident = ident) with
  | some index =>
    rw [map_ident_search_found v ident now index hf]
    obtain ⟨entry, hget, hid, -⟩ := search_and_push_found v ident now index hf
    exact List.count_eq_one_of_mem h (hid ▸ List.mem_map_of_mem _ (List.getElem?_mem hget))
  | none =>
    rw [map_ident_search_not_found v ident now hf, List.count_append]
    rw [List.count_eq_zero.mpr (not_mem_of_findIdx?_none v ident hf)]
    simp

/-- `search_and_push` preserves well-formedness of every child. -/
theorem wfChildren_search_and_push [DecidableEq I] (v : List (ScopedTimer I)) (ident : I)
    (now : Nat) (h : wfChildren v) :
    wfChildren (search_and_push v ident now).1 := by
  rw [wfChildren_iff] at h ⊢
  match hf : v.findIdx? (fun child => child.ident = ident) with
  | some index =>
    obtain ⟨entry, hget, -, heq⟩ := search_and_push_found v ident now index hf
    rw [heq]
    intro c hc
    rcases List.mem_or_eq_of_mem_set hc with hold | rfl
    · exact h c hold
    · have hwfe : wf entry := h entry (List.getElem?_mem hget)
      match entry, hwfe with
      | .mk eid est eacc etf ecs, hwfe =>
        rw [wf_mk] at hwfe ⊢
        simpa using hwfe
  | none =>
    rw [search_and_push_not_found v ident now hf]
    intro c hc
    rcases List.mem_append.mp hc with hold | hnew
    · exact h c hold
    · have : c = ScopedTimer.mk ident now 0 1 [] := by simpa using hnew
      subst this
      rw [wf_mk]
      simp [wfChildren]

/-- `modifyAtPath` never changes the target node's identifier when the
modifier does not. -/
theorem modifyAtPath_ident (f : ScopedTimer I → ScopedTimer I)
    (hid : ∀ u, (f u).ident = u.ident) (p : List Nat) (t : ScopedTimer I) :
    (modifyAtPath f p t).ident = t.ident := by
  match p, t with
  | [], t => exact hid t
  | i :: p, .mk id st acc tf cs => simp [modifyAtPath]

/-- `modifyAtPath` preserves well-formedness for identifier-preserving,
well-formedness-preserving modifiers. -/
theorem wf_modifyAtPath (f : ScopedTimer I → ScopedTimer I)
    (hid : ∀ u, (f u).ident = u.ident) (hwf : ∀ u, wf u → wf (f u)) (p : List Nat) :
    ∀ t : ScopedTimer I, wf t → wf (modifyAtPath f p t) := by
  induction p with
  | nil => exact hwf
  | cons i p ih =>
    intro t h
    match t with
    | .mk id st acc tf cs =>
      rw [wf_mk] at h
      obtain ⟨h1, h2⟩ := h
      rw [modifyAtPath]
      match hc : cs[i]? with
      | none =>
        have hmod : cs.modify (modifyAtPath f p) i = cs := by
          rw [List.modify_eq_set_get?]
          simp [List.get?_eq_getElem?, hc]
        rw [hmod, wf_mk]
        exact ⟨h1, h2⟩
      | some c =>
        have hmod : cs.modify (modifyAtPath f p) i = cs.set i (modifyAtPath f p c) := by
          rw [List.modify_eq_set_get?]
          simp [List.get?_eq_getElem?, hc]
        rw [hmod, wf_mk]
        constructor
        · rw [List.map_set, modifyAtPath_ident f hid p c, set_self_of_getElem?]
          · exact h1
          · rw [List.getElem?_map, hc]
            rfl
        · rw [wfChildren_iff] at h2 ⊢
          intro c' hc'
          rcases List.mem_or_eq_of_mem_set hc' with hold | rfl
          · exact h2 c' hold
          · exact ih c (h2 c (List.getElem?_mem hc))

/-- Both fork flavours preserve well-formedness of the forked node. -/
theorem wf_fork_preserved [DecidableEq I] (ident : I) (now : Nat) (u : ScopedTimer I)
    (h : wf u) :
    wf (ScopedTimer.fork u ident now).1 ∧ wf (handleFork u ident now).1 := by
  match u with
  | .mk id st acc tf cs =>
    rw [wf_mk] at h
    obtain ⟨h1, h2⟩ := h
    constructor
    · show wf (ScopedTimer.mk id st acc (tf + 1) (search_and_push cs ident now).1)
      rw [wf_mk]
      exact ⟨nodup_search_and_push cs ident now h1, wfChildren_search_and_push cs ident now h2⟩
    · show wf (ScopedTimer.mk id st acc tf (search_and_push cs ident now).1)
      rw [wf_mk]
      exact ⟨nodup_search_and_push cs ident now h1, wfChildren_search_and_push cs ident now h2⟩

/-- Joining preserves well-formedness. -/
theorem wf_join_preserved (now : Nat) (u : ScopedTimer I) (h : wf u) :
    wf (u.join now) := by
  match u with
  | .mk id st acc tf cs =>
    rw [wf_mk] at h
    show wf (ScopedTimer.mk id st (acc + (now - st)) tf cs)
    rw [wf_mk]
    exact h

/-- Every step of the trace semantics preserves well-formedness. -/
theorem wf_step [DecidableEq I] (s : TState I) (e : Event I) (h : wf s.root) :
    wf (step s e).root := by
  match e with
  | .fork ident now =>
    simp only [step]
    match hn : nodeAt s.path s.root with
    | none => exact h
    | some parent =>
      refine wf_modifyAtPath _ ?_ ?_ s.path s.root h
      · intro u
        by_cases hp : s.path = [] <;> simp [hp, ScopedTimer.fork, handleFork]
      · intro u hu
        by_cases hp : s.path = [] <;> simp only [hp, if_true, if_false, reduceIte]
        · exact (wf_fork_preserved ident now u hu).1
        · exact (wf_fork_preserved ident now u hu).2
  | .join now =>
    simp only [step]
    by_cases hp : s.path = []
    · simp [hp]; exact h
    · simp only [hp, if_false, reduceIte]
      refine wf_modifyAtPath _ ?_ ?_ s.path s.root h
      · intro u
        simp [ScopeJoinHandle.drop, ScopedTimer.join]
      · intro u hu
        exact wf_join_preserved now u hu

/-- A whole trace preserves well-formedness. -/
theorem wf_run [DecidableEq I] (s : TState I) (evs : List (Event I)) (h : wf s.root) :
    wf (run s evs).root := by
  induction evs generalizing s with
  | nil => exact h
  | cons e evs ih => exact ih (step s e) (wf_step s e h)

/-- The initial state is well-formed. -/
theorem wf_initState (ident : I) (t0 : Nat) : wf (initState ident t0).root := by
  simp [initState, ScopedTimer.new, wf_mk, wfChildren]

/-- C2: in every reachable state, no two children of any node share an
identifier, and a fork leaves exactly one child carrying the forked
identifier (found-or-created, never duplicated). -/
theorem claim_C2_distinct_children [DecidableEq I] (ident0 : I) (t0 : Nat)
    (evs : List (Event I)) :
    wf ((run (initState ident0 t0) evs).root) ∧
    (∀ (v : List (ScopedTimer I)) (id : I) (now : Nat),
      (v.map ScopedTimer.ident).Nodup →
      ((search_and_push v id now).1.map ScopedTimer.ident).count id = 1) :=
  ⟨wf_run _ evs (wf_initState ident0 t0),
    fun v id now h => count_search_and_push v id now h⟩

/-- Witness for C2: one trace, plus one fork into a one-child vector. -/
theorem claim_C2_witness :
    (wf ((run (initState (0 : Nat) 0) [Event.fork 1 0, Event.join 5, Event.fork 1 5]).root)) ∧
    ((([ScopedTimer.mk 1 0 0 1 []] : List (ScopedTimer Nat)).map ScopedTimer.ident).Nodup) ∧
    (((search_and_push [ScopedTimer.mk 1 0 0 1 []] (1 : Nat) 5).1.map
        ScopedTimer.ident).count 1 = 1) :=
  ⟨(claim_C2_distinct_children 0 0 [Event.fork 1 0, Event.join 5, Event.fork 1 5]).1,
    by decide,
    (claim_C2_distinct_children (0 : Nat) 0 []).2 [ScopedTimer.mk 1 0 0 1 []] 1 5 (by decide)⟩

/-! ## C4: row order in the rendered report -/

/-- Inserting keeps the same elements. -/
theorem perm_insertDesc (a : I × Nat × Nat) (l : List (I × Nat × Nat)) :
    (insertDesc a l).Perm (a :: l) := by
  induction l with
  | nil => exact List.Perm.refl _
  | cons b l ih =>
    rw [insertDesc]
    split
    · exact (ih.cons b).trans (List.Perm.swap a b l)
    · exact List.Perm.refl _

/-- Inserting into a non-increasing list keeps it non-increasing. -/
theorem sorted_insertDesc (a : I × Nat × Nat) (l : List (I × Nat × Nat))
    (h : l.Pairwise (fun x y => y.2.1 ≤ x.2.1)) :
    (insertDesc a l).Pairwise (fun x y => y.2.1 ≤ x.2.1) := by
  induction l with
  | nil => simp [insertDesc]
  | cons b l ih =>
    rw [insertDesc]
    obtain ⟨hb, hl⟩ := List.pairwise_cons.mp h
    split
    · rename_i hab
      refine List.pairwise_cons.mpr ⟨?_, ih hl⟩
      intro y hy
      rcases List.mem_cons.mp ((perm_insertDesc a l).subset hy) with rfl | hyl
      · exact Nat.le_of_lt hab
      · exact hb y hyl
    · rename_i hab
      refine List.pairwise_cons.mpr ⟨?_, h⟩
      intro y hy
      rcases List.mem_cons.mp hy with rfl | hyl
      · exact Nat.le_of_not_lt hab
      · exact Nat.le_trans (hb y hyl) (Nat.le_of_not_lt hab)

/-- The stable sort is a permutation of its input. -/
theorem perm_stableSortDesc (l : List (I × Nat × Nat)) : (stableSortDesc l).Perm l := by
  induction l with
  | nil => exact List.Perm.refl _
  | cons a l ih => exact (perm_insertDesc a (stableSortDesc l)).trans (ih.cons a)

/-- The stable sort is non-increasing in the duration component. -/
theorem sorted_stableSortDesc (l : List (I × Nat × Nat)) :
    (stableSortDesc l).Pairwise (fun x y => y.2.1 ≤ x.2.1) := by
  induction l with
  | nil => simp [stableSortDesc]
  | cons a l ih => exact sorted_insertDesc a (stableSortDesc l) ih

/-- The stable sort satisfies the `sort_unstable_by` contract. -/
theorem sortSpec_stableSortDesc (l : List (I × Nat × Nat)) :
    sortUnstableSpec l (stableSortDesc l) :=
  ⟨(perm_stableSortDesc l).symm, sorted_stableSortDesc l⟩

/-- C4 counterexample: a legal output of `join_and_finish_pretty` whose
rows do not keep the aggregation order on ties.  The aggregation list of
this tree is `[(1, 5, 1), (2, 5, 1), (0, 0, 2)]`; the unstable-sort
contract also admits `[(2, 5, 1), (1, 5, 1), (0, 0, 2)]` (the only
tie-stable descending order is the `stableSortDesc` one, which differs),
so the rendered report may order the two equal-time rows either way. -/
theorem claim_C4_counterexample :
    (join_and_finish_pretty (fun n : Nat => toString n) (fun d : Nat => toString d)
      (.mk 0 0 0 2 [.mk 1 0 5 1 [], .mk 2 5 5 1 []]) 10
      (renderTable (stringifyRows (fun n : Nat => toString n) (fun d : Nat => toString d)
        [(2, 5, 1), (1, 5, 1), (0, 0, 2)]))) ∧
    [((2 : Nat), (5 : Nat), (1 : Nat)), (1, 5, 1), (0, 0, 2)] ≠
      stableSortDesc ((ScopedTimer.mk (I := Nat) 0 0 0 2
        [.mk 1 0 5 1 [], .mk 2 5 5 1 []]).join_and_finish 10) := by
  have hjf : (ScopedTimer.mk (I := Nat) 0 0 0 2
      [.mk 1 0 5 1 [], .mk 2 5 5 1 []]).join_and_finish 10 =
      [(1, 5, 1), (2, 5, 1), (0, 0, 2)] := by
    simp [ScopedTimer.join_and_finish, ScopedTimer.join, ScopedTimer.finish, finishChildren]
  constructor
  · refine ⟨[(2, 5, 1), (1, 5, 1), (0, 0, 2)], ⟨?_, ?_⟩, rfl⟩
    · rw [hjf]
      decide
    · decide
  · rw [hjf]
    decide

/-- C4 (amended): every rendered report is the table of some permutation
of the aggregation list that is non-increasing in self time; the order
of equal-time rows is not specified (the code uses `sort_unstable_by`),
and in particular the tie-stable order is one legal outcome. -/
theorem claim_C4_rows_sorted [DecidableEq I] (showIdent : I → String)
    (showDur : Nat → String) (t : ScopedTimer I) (now : Nat) (out : String)
    (h : join_and_finish_pretty showIdent showDur t now out) :
    (∃ sorted, sorted.Perm (t.join_and_finish now) ∧
      sorted.Pairwise (fun a b => b.2.1 ≤ a.2.1) ∧
      out = renderTable (stringifyRows showIdent showDur sorted)) ∧
    join_and_finish_pretty showIdent showDur t now
      (renderTable (stringifyRows showIdent showDur
        (stableSortDesc (t.join_and_finish now)))) := by
  constructor
  · obtain ⟨sorted, ⟨hperm, hsort⟩, hout⟩ := h
    exact ⟨sorted, hperm.symm, hsort, hout⟩
  · exact ⟨stableSortDesc (t.join_and_finish now),
      sortSpec_stableSortDesc _, rfl⟩

/-- Witness for the amended C4 at a tree with two equal-time children. -/
theorem claim_C4_witness :
    (join_and_finish_pretty (fun n : Nat => toString n) (fun d : Nat => toString d)
      (.mk 0 0 0 2 [.mk 1 0 5 1 [], .mk 2 5 5 1 []]) 10
      (renderTable (stringifyRows (fun n : Nat => toString n) (fun d : Nat => toString d)
        (stableSortDesc ((ScopedTimer.mk (I := Nat) 0 0 0 2
          [.mk 1 0 5 1 [], .mk 2 5 5 1 []]).join_and_finish 10))))) ∧
    ((∃ sorted, sorted.Perm ((ScopedTimer.mk (I := Nat) 0 0 0 2
        [.mk 1 0 5 1 [], .mk 2 5 5 1 []]).join_and_finish 10) ∧
      sorted.Pairwise (fun a b => b.2.1 ≤ a.2.1) ∧
      renderTable (stringifyRows (fun n : Nat => toString n) (fun d : Nat => toString d)
        (stableSortDesc ((ScopedTimer.mk (I := Nat) 0 0 0 2
          [.mk 1 0 5 1 [], .mk 2 5 5 1 []]).join_and_finish 10))) =
        renderTable (stringifyRows (fun n : Nat => toString n) (fun d : Nat => toString d)
          sorted)) ∧
    join_and_finish_pretty (fun n : Nat => toString n) (fun d : Nat => toString d)
      (.mk 0 0 0 2 [.mk 1 0 5 1 [], .mk 2 5 5 1 []]) 10
      (renderTable (stringifyRows (fun n : Nat => toString n) (fun d : Nat => toString d)
        (stableSortDesc ((ScopedTimer.mk (I := Nat) 0 0 0 2
          [.mk 1 0 5 1 [], .mk 2 5 5 1 []]).join_and_finish 10))))) :=
  ⟨⟨stableSortDesc _, sortSpec_stableSortDesc _, rfl⟩,
    claim_C4_rows_sorted (fun n : Nat => toString n) (fun d : Nat => toString d)
      (.mk 0 0 0 2 [.mk 1 0 5 1 [], .mk 2 5 5 1 []]) 10 _
      ⟨stableSortDesc _, sortSpec_stableSortDesc _, rfl⟩⟩

/-! ## C5: table layout -/

/-- `String::len()` (UTF-8 byte count) is additive over concatenation. -/
theorem utf8ByteSize_append (a b : String) :
    (a ++ b).utf8ByteSize = a.utf8ByteSize + b.utf8ByteSize := by
  obtain ⟨la⟩ := a
  obtain ⟨lb⟩ := b
  show (String.mk (la ++ lb)).utf8ByteSize = _
  simp [String.utf8ByteSize_mk]

/-- Every character occupies at least one UTF-8 byte, so the character
count never exceeds the byte count. -/
theorem length_le_utf8ByteSize (s : String) : s.length ≤ s.utf8ByteSize := by
  obtain ⟨l⟩ := s
  show l.length ≤ String.utf8Len l
  induction l with
  | nil => simp
  | cons c cs ih =>
    rw [List.length_cons, String.utf8Len_cons]
    have := Char.utf8Size_pos c
    omega

/-- `maxOver` on a cons. -/
theorem maxOver_cons (f : (String × String × String) → Nat) (x : String × String × String)
    (l : List (String × String × String)) :
    maxOver f (x :: l) = max (f x) (maxOver f l) := by
  simp [maxOver]

/-- `maxOver` only depends on the values of `f` on the rows. -/
theorem maxOver_congr (f g : (String × String × String) → Nat)
    (l : List (String × String × String)) (h : ∀ c ∈ l, f c = g c) :
    maxOver f l = maxOver g l := by
  induction l with
  | nil => rfl
  | cons x l ih =>
    rw [maxOver_cons, maxOver_cons, h x (List.mem_cons_self x l),
      ih (fun c hc => h c (List.mem_cons_of_mem x hc))]

/-- Every row's value is bounded by the maximum. -/
theorem le_maxOver (f : (String × String × String) → Nat)
    (l : List (String × String × String)) (c : String × String × String) (hc : c ∈ l) :
    f c ≤ maxOver f l := by
  induction l with
  | nil => cases hc
  | cons x l ih =>
    rw [maxOver_cons]
    rcases List.mem_cons.mp hc with rfl | h
    · exact Nat.le_max_left _ _
    · exact Nat.le_trans (ih h) (Nat.le_max_right _ _)

/-- The width fold computes the componentwise maximum byte length. -/
theorem foldl_longest (l : List (String × String × String)) :
    ∀ a b c : Nat,
    l.foldl (fun acc s => (max acc.1 s.1.utf8ByteSize, max acc.2.1 s.2.1.utf8ByteSize,
        max acc.2.2 s.2.2.utf8ByteSize)) (a, b, c) =
      (max a (maxOver (fun s => s.1.utf8ByteSize) l),
        max b (maxOver (fun s => s.2.1.utf8ByteSize) l),
        max c (maxOver (fun s => s.2.2.utf8ByteSize) l)) := by
  induction l with
  | nil =>
    intro a b c
    simp [maxOver]
  | cons x l ih =>
    intro a b c
    rw [List.foldl_cons, ih]
    simp [maxOver_cons, Nat.max_assoc]

/-- The fold of lines 244-252 computes the longest cell per column, in
bytes. -/
theorem longestCols_eq (strings : List (String × String × String)) :
    longestCols strings = (maxOver (fun s => s.1.utf8ByteSize) strings,
      maxOver (fun s => s.2.1.utf8ByteSize) strings,
      maxOver (fun s => s.2.2.utf8ByteSize) strings) := by
  rw [longestCols, foldl_longest]
  simp

/-- Each column width is the maximum of the header label's byte length
and the longest rendered cell's byte length. -/
theorem colWidths_eq (strings : List (String × String × String)) :
    colWidths strings =
      (max "Identifier".utf8ByteSize (maxOver (fun s => s.1.utf8ByteSize) strings),
        max "Duration".utf8ByteSize (maxOver (fun s => s.2.1.utf8ByteSize) strings),
        max "Times Forked".utf8ByteSize
          (maxOver (fun s => s.2.2.utf8ByteSize) strings)) := by
  rw [colWidths, longestCols_eq]
  simp [Nat.max_comm]

/-- Padding a cell whose character count fits yields exactly the column
width in characters. -/
theorem length_padTo (w : Nat) (s : String) (h : s.length ≤ w) :
    (padTo w s).length = w := by
  rw [padTo, String.length_append]
  show s.length + (List.replicate (w - s.length) ' ').length = w
  rw [List.length_replicate]
  omega

/-- C5 counterexample: the program computes column widths with
`String::len()`, which counts UTF-8 bytes (lines 248-250 and 254-256),
not rendered characters.  For a seven-character, fourteen-byte
identifier cell the computed width is 14 while the maximum of the header
label length and the longest rendered cell length (in characters) is 10,
so the claimed width formula is false of the code. -/
theorem claim_C5_counterexample :
    (colWidths [("ééééééé", "5ns", "1")]).1 = 14 ∧
    max ("Identifier" : String).length
      (maxOver (fun s => s.1.length) [(("ééééééé" : String), ("5ns" : String),
        ("1" : String))]) = 10 ∧
    (14 : Nat) ≠ 10 := by
  refine ⟨by decide, ?_, by decide⟩
  rw [maxOver_cons]
  decide

/-- C5 (amended): each column's width is the maximum of the header
label's byte length (`String::len()`) and the longest rendered cell's
byte length; when every cell's byte length equals its character length
(e.g. ASCII renderings) this is the original character-based maximum.
The table is three horizontal rules around a header line and one line
per row; each rule segment is `width + 2` dashes; every cell is the raw
cell text (no quoting), left-aligned, padded with spaces to the column
width in characters, with one space on each side between pipes; all
data lines have the same character length. -/
theorem claim_C5_table_layout (strings : List (String × String × String)) :
    ((colWidths strings).1 =
        max "Identifier".utf8ByteSize (maxOver (fun s => s.1.utf8ByteSize) strings) ∧
      (colWidths strings).2.1 =
        max "Duration".utf8ByteSize (maxOver (fun s => s.2.1.utf8ByteSize) strings) ∧
      (colWidths strings).2.2 =
        max "Times Forked".utf8ByteSize
          (maxOver (fun s => s.2.2.utf8ByteSize) strings)) ∧
    ((∀ c ∈ strings, c.1.utf8ByteSize = c.1.length ∧ c.2.1.utf8ByteSize = c.2.1.length ∧
        c.2.2.utf8ByteSize = c.2.2.length) →
      ((colWidths strings).1 =
          max "Identifier".length (maxOver (fun s => s.1.length) strings) ∧
        (colWidths strings).2.1 =
          max "Duration".length (maxOver (fun s => s.2.1.length) strings) ∧
        (colWidths strings).2.2 =
          max "Times Forked".length (maxOver (fun s => s.2.2.length) strings))) ∧
    renderTable strings =
      hline (colWidths strings).1 (colWidths strings).2.1 (colWidths strings).2.2 ++
        "\n" ++
        tableRow (colWidths strings).1 (colWidths strings).2.1 (colWidths strings).2.2
          ("Identifier", "Duration", "Times Forked") ++
        hline (colWidths strings).1 (colWidths strings).2.1 (colWidths strings).2.2 ++
        "\n" ++
        String.join (strings.map (tableRow (colWidths strings).1 (colWidths strings).2.1
          (colWidths strings).2.2)) ++
        hline (colWidths strings).1 (colWidths strings).2.1 (colWidths strings).2.2 ∧
    (hline (colWidths strings).1 (colWidths strings).2.1 (colWidths strings).2.2).length =
      ((colWidths strings).1 + 2) + ((colWidths strings).2.1 + 2) +
        ((colWidths strings).2.2 + 2) + 4 ∧
    (∀ w : Nat, (String.mk (List.replicate (w + 2) '-')).length = w + 2 ∧
      ∀ ch ∈ List.replicate (w + 2) '-', ch = '-') ∧
    (∀ c ∈ strings,
      tableRow (colWidths strings).1 (colWidths strings).2.1 (colWidths strings).2.2 c =
        "| " ++ (c.1 ++ String.mk (List.replicate ((colWidths strings).1 - c.1.length) ' ')) ++
        " | " ++
        (c.2.1 ++ String.mk (List.replicate ((colWidths strings).2.1 - c.2.1.length) ' ')) ++
        " | " ++
        (c.2.2 ++ String.mk (List.replicate ((colWidths strings).2.2 - c.2.2.length) ' ')) ++
        " |\n" ∧
      (padTo (colWidths strings).1 c.1).length = (colWidths strings).1 ∧
      (padTo (colWidths strings).2.1 c.2.1).length = (colWidths strings).2.1 ∧
      (padTo (colWidths strings).2.2 c.2.2).length = (colWidths strings).2.2 ∧
      (tableRow (colWidths strings).1 (colWidths strings).2.1 (colWidths strings).2.2
          c).length =
        (colWidths strings).1 + (colWidths strings).2.1 + (colWidths strings).2.2 + 11) := by
  have hw1 : ∀ c ∈ strings, c.1.length ≤ (colWidths strings).1 := by
    intro c hc
    rw [colWidths_eq]
    exact Nat.le_trans (length_le_utf8ByteSize c.1)
      (Nat.le_trans (le_maxOver (fun s => s.1.utf8ByteSize) strings c hc)
        (Nat.le_max_right _ _))
  have hw2 : ∀ c ∈ strings, c.2.1.length ≤ (colWidths strings).2.1 := by
    intro c hc
    rw [colWidths_eq]
    exact Nat.le_trans (length_le_utf8ByteSize c.2.1)
      (Nat.le_trans (le_maxOver (fun s => s.2.1.utf8ByteSize) strings c hc)
        (Nat.le_max_right _ _))
  have hw3 : ∀ c ∈ strings, c.2.2.length ≤ (colWidths strings).2.2 := by
    intro c hc
    rw [colWidths_eq]
    exact Nat.le_trans (length_le_utf8ByteSize c.2.2)
      (Nat.le_trans (le_maxOver (fun s => s.2.2.utf8ByteSize) strings c hc)
        (Nat.le_max_right _ _))
  have hmk : ∀ l : List Char, (String.mk l).length = l.length := fun _ => rfl
  refine ⟨?_, ?_, ?_, ?_, ?_, ?_⟩
  · rw [colWidths_eq]
    exact ⟨rfl, rfl, rfl⟩
  · intro hascii
    rw [colWidths_eq]
    have hid : ("Identifier" : String).utf8ByteSize = "Identifier".length := rfl
    have hdu : ("Duration" : String).utf8ByteSize = "Duration".length := rfl
    have htf : ("Times Forked" : String).utf8ByteSize = "Times Forked".length := rfl
    refine ⟨?_, ?_, ?_⟩
    · rw [hid, maxOver_congr (fun s => s.1.utf8ByteSize) (fun s => s.1.length) strings
        (fun c hc => (hascii c hc).1)]
    · rw [hdu, maxOver_congr (fun s => s.2.1.utf8ByteSize) (fun s => s.2.1.length) strings
        (fun c hc => (hascii c hc).2.1)]
    · rw [htf, maxOver_congr (fun s => s.2.2.utf8ByteSize) (fun s => s.2.2.length) strings
        (fun c hc => (hascii c hc).2.2)]
  · rfl
  · have hp : ("+" : String).length = 1 := rfl
    simp only [hline, String.length_append]
    simp only [hp, hmk, List.length_replicate]
    omega
  · intro w
    refine ⟨?_, fun ch hch => List.eq_of_mem_replicate hch⟩
    rw [hmk, List.length_replicate]
  · intro c hc
    refine ⟨rfl, length_padTo _ _ (hw1 c hc), length_padTo _ _ (hw2 c hc),
      length_padTo _ _ (hw3 c hc), ?_⟩
    have hp1 : ("| " : String).length = 2 := rfl
    have hp2 : (" | " : String).length = 3 := rfl
    have hp3 : (" |\n" : String).length = 3 := rfl
    simp only [tableRow, String.length_append]
    simp only [length_padTo _ _ (hw1 c hc), length_padTo _ _ (hw2 c hc),
      length_padTo _ _ (hw3 c hc), hp1, hp2, hp3]
    omega

/-- Witness for the amended C5 at a one-row table. -/
theorem claim_C5_witness :
    (("a", "5ns", "1") ∈ [(("a" : String), ("5ns" : String), ("1" : String))]) ∧
    (tableRow (colWidths [("a", "5ns", "1")]).1 (colWidths [("a", "5ns", "1")]).2.1
        (colWidths [("a", "5ns", "1")]).2.2 ("a", "5ns", "1") =
      "| " ++ ("a" ++ String.mk (List.replicate ((colWidths [("a", "5ns", "1")]).1 -
          ("a" : String).length) ' ')) ++
      " | " ++ ("5ns" ++ String.mk (List.replicate ((colWidths [("a", "5ns", "1")]).2.1 -
          ("5ns" : String).length) ' ')) ++
      " | " ++ ("1" ++ String.mk (List.replicate ((colWidths [("a", "5ns", "1")]).2.2 -
          ("1" : String).length) ' ')) ++
      " |\n" ∧
    (padTo (colWidths [("a", "5ns", "1")]).1 "a").length = (colWidths [("a", "5ns", "1")]).1 ∧
    (padTo (colWidths [("a", "5ns", "1")]).2.1 "5ns").length =
      (colWidths [("a", "5ns", "1")]).2.1 ∧
    (padTo (colWidths [("a", "5ns", "1")]).2.2 "1").length =
      (colWidths [("a", "5ns", "1")]).2.2 ∧
    (tableRow (colWidths [("a", "5ns", "1")]).1 (colWidths [("a", "5ns", "1")]).2.1
        (colWidths [("a", "5ns", "1")]).2.2 ("a", "5ns", "1")).length =
      (colWidths [("a", "5ns", "1")]).1 + (colWidths [("a", "5ns", "1")]).2.1 +
        (colWidths [("a", "5ns", "1")]).2.2 + 11) :=
  ⟨by simp,
    (claim_C5_table_layout [("a", "5ns", "1")]).2.2.2.2.2 ("a", "5ns", "1") (by simp)⟩

end TimerRs
